import Mathlib

/-!
Verification development for the mini-n8n workflow execution engine
(`src/server/workflow-engine.ts`, with `src/server/routes.ts`,
`src/server/storage.ts` and `src/shared/schema.ts` for the surrounding
data model).

The embedding is shallow and executable:

* JSON-like runtime values (`INodeData` / `INodeParams` records) are the
  inductive `JValue`; a record is an insertion-ordered association list.
* JavaScript `Map` objects are insertion-ordered association lists with
  `mapSet` / `mapGet` mirroring `Map.set` / `Map.get`.
* The four node executors are pure functions returning
  `Except String (List Rec)`; a thrown `Error(msg)` is `.error msg` and a
  resolved promise is `.ok`.  External I/O (axios) is an oracle argument.
* `WorkflowEngine.executeWorkflow` is modelled as a pure function that
  emits the sequence of storage updates it performs (`StorageOp`) together
  with the trace of node-executor invocations; storage itself
  (`MemStorage.updateExecution`, which merges partial updates) is the fold
  `runStorage`.  An external stop request (`POST /api/executions/:id/stop`
  in `routes.ts`) is the single update `StorageOp.markStopped`, which can
  be interleaved with the engine's updates.
-/

/-- A JSON-like runtime value (the dynamic values flowing between nodes). -/
inductive JValue where
  | jnull
  | jbool (b : Bool)
  | jnum (n : Int)
  | jstr (s : String)
  | jarr (elems : List JValue)
  | jobj (fields : List (String × JValue))

mutual

def JValue.deq : (a b : JValue) → Decidable (a = b)
  | .jnull, .jnull => .isTrue rfl
  | .jbool a, .jbool b =>
      if h : a = b then .isTrue (by rw [h]) else .isFalse (by simp [h])
  | .jnum a, .jnum b =>
      if h : a = b then .isTrue (by rw [h]) else .isFalse (by simp [h])
  | .jstr a, .jstr b =>
      if h : a = b then .isTrue (by rw [h]) else .isFalse (by simp [h])
  | .jarr a, .jarr b =>
      match JValue.deqList a b with
      | .isTrue h => .isTrue (by rw [h])
      | .isFalse h => .isFalse (by simp [h])
  | .jobj a, .jobj b =>
      match JValue.deqFields a b with
      | .isTrue h => .isTrue (by rw [h])
      | .isFalse h => .isFalse (by simp [h])
  | .jnull, .jbool _ => .isFalse (by simp)
  | .jnull, .jnum _ => .isFalse (by simp)
  | .jnull, .jstr _ => .isFalse (by simp)
  | .jnull, .jarr _ => .isFalse (by simp)
  | .jnull, .jobj _ => .isFalse (by simp)
  | .jbool _, .jnull => .isFalse (by simp)
  | .jbool _, .jnum _ => .isFalse (by simp)
  | .jbool _, .jstr _ => .isFalse (by simp)
  | .jbool _, .jarr _ => .isFalse (by simp)
  | .jbool _, .jobj _ => .isFalse (by simp)
  | .jnum _, .jnull => .isFalse (by simp)
  | .jnum _, .jbool _ => .isFalse (by simp)
  | .jnum _, .jstr _ => .isFalse (by simp)
  | .jnum _, .jarr _ => .isFalse (by simp)
  | .jnum _, .jobj _ => .isFalse (by simp)
  | .jstr _, .jnull => .isFalse (by simp)
  | .jstr _, .jbool _ => .isFalse (by simp)
  | .jstr _, .jnum _ => .isFalse (by simp)
  | .jstr _, .jarr _ => .isFalse (by simp)
  | .jstr _, .jobj _ => .isFalse (by simp)
  | .jarr _, .jnull => .isFalse (by simp)
  | .jarr _, .jbool _ => .isFalse (by simp)
  | .jarr _, .jnum _ => .isFalse (by simp)
  | .jarr _, .jstr _ => .isFalse (by simp)
  | .jarr _, .jobj _ => .isFalse (by simp)
  | .jobj _, .jnull => .isFalse (by simp)
  | .jobj _, .jbool _ => .isFalse (by simp)
  | .jobj _, .jnum _ => .isFalse (by simp)
  | .jobj _, .jstr _ => .isFalse (by simp)
  | .jobj _, .jarr _ => .isFalse (by simp)

def JValue.deqList : (a b : List JValue) → Decidable (a = b)
  | [], [] => .isTrue rfl
  | [], _ :: _ => .isFalse (by simp)
  | _ :: _, [] => .isFalse (by simp)
  | x :: xs, y :: ys =>
      match JValue.deq x y, JValue.deqList xs ys with
      | .isTrue h1, .isTrue h2 => .isTrue (by rw [h1, h2])
      | .isFalse h1, _ => .isFalse (by simp [h1])
      | _, .isFalse h2 => .isFalse (by simp [h2])

def JValue.deqFields : (a b : List (String × JValue)) → Decidable (a = b)
  | [], [] => .isTrue rfl
  | [], _ :: _ => .isFalse (by simp)
  | _ :: _, [] => .isFalse (by simp)
  | (k1, v1) :: xs, (k2, v2) :: ys =>
      match String.decEq k1 k2, JValue.deq v1 v2, JValue.deqFields xs ys with
      | .isTrue h0, .isTrue h1, .isTrue h2 => .isTrue (by rw [h0, h1, h2])
      | .isFalse h0, _, _ => .isFalse (by simp [h0])
      | _, .isFalse h1, _ => .isFalse (by simp [h1])
      | _, _, .isFalse h2 => .isFalse (by simp [h2])

end

instance : DecidableEq JValue := JValue.deq

instance {ε α : Type} [DecidableEq ε] [DecidableEq α] : DecidableEq (Except ε α)
  | .ok a, .ok b =>
      if h : a = b then .isTrue (by rw [h]) else .isFalse (by simp [h])
  | .error a, .error b =>
      if h : a = b then .isTrue (by rw [h]) else .isFalse (by simp [h])
  | .ok _, .error _ => .isFalse (by simp)
  | .error _, .ok _ => .isFalse (by simp)

/-- A JavaScript object record (`INodeData` / `INodeParams`): string keys
in insertion order.  Keys of records built from JSON are unique; lookup
finds the first binding. -/
abbrev Rec := List (String × JValue)

/-- JavaScript property read `r[k]` on a plain object (`undefined` is
`none`). -/
def lookupField (r : Rec) (k : String) : Option JValue :=
  (r.find? (fun p => p.1 = k)).map (fun p => p.2)

/-- JavaScript property read `v[k]` on an arbitrary value: object field,
array index for a numeric key, `undefined` otherwise (inherited prototype
properties are not modelled; the engine's dotted paths only traverse plain
JSON data). -/
def jsGet (v : JValue) (k : String) : Option JValue :=
  match v with
  | .jobj fields => lookupField fields k
  | .jarr elems =>
      match k.toNat? with
      | some i => elems.get? i
      | none => none
  | _ => none

/-- Split a character list at every occurrence of a separator character
(the semantics of JavaScript `String.prototype.split` with a one-character
separator; the empty string splits to `[""]`). -/
def splitOnCharAux (sep : Char) : List Char → List Char → List (List Char)
  | [], acc => [acc.reverse]
  | c :: rest, acc =>
      if c = sep then acc.reverse :: splitOnCharAux sep rest []
      else splitOnCharAux sep rest (c :: acc)

def splitOnChar (sep : Char) (l : List Char) : List (List Char) :=
  splitOnCharAux sep l []

/-- The dotted-path walk `path.split('.').reduce((obj, key) => obj?.[key], data)`
used by `IfNode.execute` (workflow-engine.ts line 72): optional chaining
propagates `undefined`. -/
def walkPath (data : JValue) (path : String) : Option JValue :=
  (splitOnChar '.' path.data).foldl
    (fun acc key => acc.bind (fun v => jsGet v (String.mk key))) (some data)

/-- JSON string escaping as performed by `JSON.stringify` (quotes,
backslashes and newlines; other control characters do not occur in the
data this development evaluates). -/
def escapeJsonString (s : String) : String :=
  String.join (s.data.map (fun c =>
    if c = '"' then "\\\""
    else if c = '\\' then "\\\\"
    else if c = '\n' then "\\n"
    else String.mk [c]))

/-- Join strings with a separator (structurally recursive so that concrete
evaluations reduce in the kernel). -/
def joinSep (sep : String) : List String → String
  | [] => ""
  | [x] => x
  | x :: xs => x ++ sep ++ joinSep sep xs

/-- Decimal rendering of an integer (JavaScript number-to-string for the
integers this development evaluates). -/
def intToString (n : Int) : String :=
  match n with
  | .ofNat m => toString m
  | .negSucc m => "-" ++ toString (m + 1)

mutual

/-- `JSON.stringify` on a defined JSON value. -/
def jsonStringify : JValue → String
  | .jnull => "null"
  | .jbool true => "true"
  | .jbool false => "false"
  | .jnum n => intToString n
  | .jstr s => "\"" ++ escapeJsonString s ++ "\""
  | .jarr elems => "[" ++ joinSep "," (jsonStringifyList elems) ++ "]"
  | .jobj fields => "\x7b" ++ joinSep "," (jsonStringifyFields fields) ++ "\x7d"

def jsonStringifyList : List JValue → List String
  | [] => []
  | v :: vs => jsonStringify v :: jsonStringifyList vs

def jsonStringifyFields : List (String × JValue) → List String
  | [] => []
  | (k, v) :: fs => ("\"" ++ escapeJsonString k ++ "\":" ++ jsonStringify v) :: jsonStringifyFields fs

end

/-- JavaScript truthiness of a defined value. -/
def jsTruthy : JValue → Bool
  | .jnull => false
  | .jbool b => b
  | .jnum n => n != 0
  | .jstr s => s != ""
  | .jarr _ => true
  | .jobj _ => true

/-- JavaScript falsiness of a possibly-`undefined` value (`!x`). -/
def isFalsy (v : Option JValue) : Bool :=
  match v with
  | none => true
  | some v => ! jsTruthy v

/-- Object spread `\x7b...a, ...b\x7d`: keys of `a` keep their position but
take `b`'s value when present; keys only in `b` are appended in order. -/
def jsSpread (a b : Rec) : Rec :=
  (a.map (fun p =>
    match lookupField b p.1 with
    | some v => (p.1, v)
    | none => p))
  ++ b.filter (fun q => (lookupField a q.1).isNone)

/-- The template substitution
`condition.replace(/\x5c\x7b\x5c\x7b([^\x7d]+)\x5c\x7d\x5c\x7d/g, (match, path) => ...)`
(workflow-engine.ts line 70), working on the character list.  At each
position the regex engine matches `\x7b\x7b`, then a nonempty greedy run of
non-`\x7d` characters, then `\x7d\x7d`; on failure it advances one
character.  `resolve` is the replacer: its result string (already coerced
from the replacer's return value) is spliced in and scanning resumes after
the match.  The scan consumes at least one source character per step, so
`fuel := length` in the wrapper suffices; the recursion is structural on
`fuel` so that concrete evaluations reduce in the kernel. -/
def substituteTemplatesF (resolve : String → String) : Nat → List Char → List Char
  | _, [] => []
  | 0, l => l
  | fuel + 1, '{' :: '{' :: rest =>
      let path := rest.takeWhile (fun c => c ≠ '}')
      let rem := rest.dropWhile (fun c => c ≠ '}')
      if path ≠ [] ∧ rem.take 2 = ['}', '}'] then
        (resolve (String.mk path)).data ++ substituteTemplatesF resolve fuel (rem.drop 2)
      else
        '{' :: substituteTemplatesF resolve fuel ('{' :: rest)
  | fuel + 1, c :: rest => c :: substituteTemplatesF resolve fuel rest

def substituteTemplates (resolve : String → String) (l : List Char) : List Char :=
  substituteTemplatesF resolve l.length l

/-- The replacer of `IfNode.execute`: `JSON.stringify` of the value looked
up by dotted path; a missing path gives `JSON.stringify(undefined)`, which
is the value `undefined`, which `String.prototype.replace` coerces to the
text `"undefined"`. -/
def stringifyLookup (v : Option JValue) : String :=
  match v with
  | none => "undefined"
  | some v => jsonStringify v

/-- The substituted condition string built by `IfNode.execute` before
evaluation (workflow-engine.ts lines 70-74). -/
def substituteCondition (data : Rec) (condition : String) : String :=
  String.mk (substituteTemplates
    (fun path => stringifyLookup (walkPath (.jobj data) path)) condition.data)

/-- A JavaScript value produced by evaluating one of the condition
expressions this development needs. -/
inductive JsVal where
  | vundef
  | vnum (n : Int)
  | vbool (b : Bool)
deriving DecidableEq

/-- Parse a nonempty run of decimal digits. -/
def parseDigits (l : List Char) : Option Nat :=
  if l = [] then none
  else if l.all Char.isDigit then
    some (l.foldl (fun acc c => acc * 10 + (c.toNat - 48)) 0)
  else none

/-- Parse a token of the modelled expression fragment: an integer literal
(optionally negative), `true`, `false` or `undefined`. -/
def parseTok (t : List Char) : Option JsVal :=
  if t = "undefined".data then some .vundef
  else if t = "true".data then some (.vbool true)
  else if t = "false".data then some (.vbool false)
  else
    match t with
    | '-' :: ds => (parseDigits ds).map (fun n => .vnum (-(n : Int)))
    | ds => (parseDigits ds).map (fun n => .vnum (n : Int))

/-- JavaScript strict equality `===` on the modelled fragment (operands of
different types are never strictly equal; `undefined === undefined` is
`true`). -/
def strictEq : JsVal → JsVal → Bool
  | .vundef, .vundef => true
  | .vnum a, .vnum b => a = b
  | .vbool a, .vbool b => a = b
  | _, _ => false

/-- Model of the JavaScript engine's `eval` restricted to the expression
forms the engine's substituted conditions exercise: a single token or
`tok === tok`, with tokens separated by spaces.  `none` stands for a
string outside the modelled fragment (including strings whose evaluation
throws). -/
def jsEval (s : String) : Option JsVal :=
  match (splitOnChar ' ' s.data).filter (fun w => w ≠ []) with
  | [t] => parseTok t
  | [a, eq, b] =>
      if eq = ['=', '=', '='] then
        match parseTok a, parseTok b with
        | some x, some y => some (.vbool (strictEq x y))
        | _, _ => none
      else none
  | _ => none

/-- Truthiness of an evaluated condition value (`Boolean(result)` and the
`result ? "true" : "false"` test). -/
def jsValTruthy : JsVal → Bool
  | .vundef => false
  | .vnum n => n != 0
  | .vbool b => b

/-- `StartNode.execute` (workflow-engine.ts lines 9-13): returns a single
record `\x7bstartTime: now, ...params\x7d`; always succeeds. -/
def startNodeExecute (now : String) (_inputData : List Rec) (params : Rec) :
    Except String (List Rec) :=
  .ok [jsSpread [("startTime", .jstr now)] params]

/-- The request configuration object passed to `axios` by
`FetchApiNode.execute` (workflow-engine.ts lines 24-30). -/
structure AxiosConfig where
  method : String
  url : JValue
  headers : JValue
  data : Option JValue
  timeout : Int
deriving DecidableEq

/-- `String.prototype.toLowerCase` on the ASCII range (HTTP method
strings are ASCII). -/
def jsToLowerCase (s : String) : String :=
  String.mk (s.data.map (fun c =>
    if 'A' ≤ c ∧ c ≤ 'Z' then Char.ofNat (c.toNat + 32) else c))

/-- The TypeError message raised by evaluating `method.toLowerCase()`
when `method` is not a string (the V8 wording; it is produced by the
JavaScript runtime, not by the engine, and only its `Request failed: `
wrapping below is the engine's).  `params.method` defaults to `"GET"`
only when absent/undefined, so a present non-string value — which passes
schema validation, since `params` is `z.record(z.any())` — reaches this
call. -/
def methodTypeErrorMessage : String := "method.toLowerCase is not a function"

/-- Build the axios request configuration (workflow-engine.ts lines
24-30): `method.toLowerCase()` with `method` defaulting to `"GET"`, the
url, `headers` defaulting to `\x7b\x7d`, `body` as the request data, and
the 30000 ms timeout.  The expression is evaluated inside the `try`
before any request is made; a present non-string `params.method` makes
`method.toLowerCase()` throw a TypeError, modelled as `none`. -/
def buildAxiosConfig (params : Rec) : Option AxiosConfig :=
  match (lookupField params "method").getD (.jstr "GET") with
  | .jstr m =>
      some { method := jsToLowerCase m
             url := (lookupField params "url").getD .jnull
             headers := (lookupField params "headers").getD (.jobj [])
             data := lookupField params "body"
             timeout := 30000 }
  | _ => none

/-- The outcome of one awaited `axios(config)` call, as classified by the
catch block of `FetchApiNode.execute`: a 2xx response resolves; a rejection
carries `error.response` (non-2xx status received), or `error.request`
(request sent, no response), or neither (the request could not be
constructed or sent). -/
inductive AxiosOutcome where
  | success (status : Int) (headers : JValue) (data : JValue)
  | errorResponse (status : Int) (statusText : String)
  | errorNoResponse
  | errorSetup (message : String)

/-- `FetchApiNode.execute` (workflow-engine.ts lines 15-48), with the HTTP
transport abstracted as an oracle from the request configuration to the
awaited outcome.  When building the configuration itself throws (present
non-string `params.method`), the thrown TypeError is caught by the same
catch block with neither `error.response` nor `error.request`, so the
setup-failure branch fires without the transport ever being consulted. -/
def fetchApiExecute (axios : AxiosConfig → AxiosOutcome) (inputData : List Rec)
    (params : Rec) : Except String (List Rec) :=
  if isFalsy (lookupField params "url") then
    .error "URL is required for HTTP request"
  else
    match buildAxiosConfig params with
    | none => .error ("Request failed: " ++ methodTypeErrorMessage)
    | some config =>
        match axios config with
        | .success status headers data =>
            .ok [[("statusCode", .jnum status),
                  ("headers", headers),
                  ("data", data),
                  ("inputData", .jobj ((inputData.head?).getD []))]]
        | .errorResponse status statusText =>
            .error ("HTTP " ++ toString status ++ ": " ++ statusText)
        | .errorNoResponse =>
            .error "No response received from server"
        | .errorSetup message =>
            .error ("Request failed: " ++ message)

/-- `LogMessageNode.execute` (workflow-engine.ts lines 50-61): returns a
single record `\x7blogMessage, loggedData, timestamp\x7d`; `message`
defaults to `"Log output"` when absent, `loggedData` is the first input or
`\x7b\x7d`.  No template substitution is performed on `message`. -/
def logMessageExecute (now : String) (inputData : List Rec) (params : Rec) :
    Except String (List Rec) :=
  let message := (lookupField params "message").getD (.jstr "Log output")
  let data : Rec := (inputData.head?).getD []
  .ok [[("logMessage", message),
        ("loggedData", .jobj data),
        ("timestamp", .jstr now)]]

/-- `IfNode.execute` (workflow-engine.ts lines 63-89): substitutes
`\x7b\x7bpath\x7d\x7d` placeholders in `params.condition` (default
`"true"`) with `JSON.stringify` of the dotted-path lookup in the first
input record, evaluates the substituted string, and returns the condition
record; an evaluation failure (or a non-string condition, whose `.replace`
would throw) is caught and rethrown as the wrapped error. -/
def ifNodeExecute (inputData : List Rec) (params : Rec) :
    Except String (List Rec) :=
  let condVal := (lookupField params "condition").getD (.jstr "true")
  match condVal with
  | .jstr condition =>
      let data : Rec := (inputData.head?).getD []
      let evaluableCondition := substituteCondition data condition
      match jsEval evaluableCondition with
      | some result =>
          .ok [[("conditionResult", .jbool (jsValTruthy result)),
                ("conditionExpression", .jstr condition),
                ("inputData", .jobj data),
                ("outputPath", .jstr (if jsValTruthy result then "true" else "false"))]]
      | none =>
          .error ("Failed to evaluate condition \"" ++ condition ++ "\": evaluation error")
  | _ => .error "Failed to evaluate condition: condition is not a string"

/-- A JavaScript `Map` (insertion-ordered string keys).  `mapSet` updates
the first binding in place or appends a new one; `mapGet` returns the
first binding; this also models plain-object index assignment and read for
the `executionResults` record, whose keys are unique. -/
def mapSet {α : Type} : List (String × α) → String → α → List (String × α)
  | [], k, v => [(k, v)]
  | (k1, v1) :: rest, k, v =>
      if k1 = k then (k, v) :: rest else (k1, v1) :: mapSet rest k v

def mapGet {α : Type} (m : List (String × α)) (k : String) : Option α :=
  (m.find? (fun p => p.1 = k)).map (fun p => p.2)

def mapHas {α : Type} (m : List (String × α)) (k : String) : Bool :=
  (m.find? (fun p => p.1 = k)).isSome

/-- A workflow node (`workflowNodeSchema` in shared/schema.ts, restricted
to the fields the engine reads: `position` and the UI `status` are
display-only and never consulted by `WorkflowEngine`).  `type` is the
type tag looked up in the node registry; `params` is optional in the
schema (`nodeConfig.params || \x7b\x7d`). -/
structure WNode where
  id : String
  type : String
  params : Option Rec
deriving DecidableEq

/-- A connection (`connectionSchema`): a directed edge `from_ → to`
(the source fields `from` and `to` are reserved words in Lean). -/
structure Connection where
  id : String
  from_ : String
  to_ : String
deriving DecidableEq

/-- A workflow (`workflowSchema`, restricted to the fields the engine
reads). -/
structure Workflow where
  id : String
  name : String
  nodes : List WNode
  connections : List Connection

/-- The in-degree table built by `getExecutionOrder` lines 111-114: every
node id mapped to 0, in node-list order.  Degrees are integers: JavaScript
decrements can drive a counter below zero. -/
def buildInDegree (nodes : List WNode) : List (String × Int) :=
  nodes.foldl (fun m n => mapSet m n.id 0) []

/-- The adjacency table built by the same loop: every node id mapped to an
empty successor list. -/
def buildGraphInit (nodes : List WNode) : List (String × List String) :=
  nodes.foldl (fun m n => mapSet m n.id []) []

/-- The connection pass of `getExecutionOrder` lines 117-123: validate
both endpoints against the node-id keys, push `conn.to` onto
`graph.get(conn.from)` and increment `inDegree.get(conn.to)`; the first
invalid connection throws. -/
def addConnections :
    List (String × List String) → List (String × Int) → List Connection →
    Except String (List (String × List String) × List (String × Int))
  | graph, indeg, [] => .ok (graph, indeg)
  | graph, indeg, c :: cs =>
      if ¬ (mapHas graph c.from_ ∧ mapHas graph c.to_) then
        .error ("Invalid connection: " ++ c.from_ ++ " -> " ++ c.to_)
      else
        addConnections
          (mapSet graph c.from_ (((mapGet graph c.from_).getD []) ++ [c.to_]))
          (mapSet indeg c.to_ (((mapGet indeg c.to_).getD 0) + 1))
          cs

/-- One neighbour step of the Kahn loop body (lines 141-146): decrement
the neighbour's in-degree and enqueue it at the back when the decremented
value is exactly zero.  A neighbour missing from the table (impossible
after validation) would become `NaN` in JavaScript, which never compares
equal to 0 and is never enqueued; the sentinel `-1` has the same
observable behaviour under decrement and zero-test. -/
def processNeighbor (st : List (String × Int) × List String) (nb : String) :
    List (String × Int) × List String :=
  match mapGet st.1 nb with
  | none => (mapSet st.1 nb (-1), st.2)
  | some d =>
      (mapSet st.1 nb (d - 1), if d - 1 = 0 then st.2 ++ [nb] else st.2)

/-- The sum of the positive in-degrees: each loop iteration strictly
decreases `sumPos indeg + queue.length`, so that quantity is enough fuel
for the while loop. -/
def sumPos (m : List (String × Int)) : Nat :=
  (m.map (fun p => p.2.toNat)).sum

/-- The while loop of `getExecutionOrder` lines 136-147 (Kahn's
algorithm): dequeue from the front, append to the order, process the
neighbours.  Structural recursion on fuel keeps concrete runs computable;
`getExecutionOrder` passes sufficient fuel (`kahnLoop_fuel_irrelevant`
below shows any fuel at least `sumPos indeg + queue.length` gives the
loop's result). -/
def kahnLoop (graph : List (String × List String)) :
    Nat → List (String × Int) → List String → List String → List String
  | _, _, [], order => order
  | 0, _, _ :: _, order => order
  | fuel + 1, indeg, nodeId :: queue, order =>
      let nbs := (mapGet graph nodeId).getD []
      let st := nbs.foldl processNeighbor (indeg, queue)
      kahnLoop graph fuel st.1 st.2 (order ++ [nodeId])

/-- `WorkflowEngine.getExecutionOrder` (workflow-engine.ts lines 106-155):
build the tables, validate connections, seed the FIFO queue with the
zero-in-degree entries in table (= node-list) order, run the loop, and
report a cycle when the order misses a node. -/
def getExecutionOrder (nodes : List WNode) (conns : List Connection) :
    Except String (List String) :=
  match addConnections (buildGraphInit nodes) (buildInDegree nodes) conns with
  | .error e => .error e
  | .ok (graph, indeg) =>
      let queue := (indeg.filter (fun p => p.2 = 0)).map (fun p => p.1)
      let order := kahnLoop graph (sumPos indeg + queue.length) indeg queue []
      if order.length ≠ nodes.length then
        .error "Workflow contains a cycle and cannot be executed"
      else
        .ok order

/-- A log entry (`executionSchema.logs` items). -/
structure LogEntry where
  timestamp : String
  level : String
  message : String
  nodeId : Option String
deriving DecidableEq

/-- An execution record (`executionSchema`).  `results` is optional in the
schema and absent on creation. -/
structure Execution where
  id : String
  workflowId : String
  status : String
  startedAt : String
  completedAt : Option String
  currentNodeId : Option String
  logs : List LogEntry
  results : Option (List (String × List Rec))
deriving DecidableEq

/-- One `storage.updateExecution` call, named by the partial update the
caller passes.  `MemStorage.updateExecution` merges the partial record
over the existing one (storage.ts lines 157-167); `markStopped` is the
update issued by the stop route (routes.ts lines 116-129), every other
constructor is an update issued by the engine. -/
inductive StorageOp where
  | setCurrent (nodeId : String)
  | appendLog (entry : LogEntry)
  | markFailed (completedAt : String)
  | markCompleted (completedAt : String) (results : List (String × List Rec))
  | markStopped (completedAt : String)
deriving DecidableEq

/-- Apply one update to the stored execution, with the merge semantics of
`MemStorage.updateExecution`.  `addLog` reads the current logs and writes
the appended list; since only one writer touches `logs`, it is the append.
The engine's failure update (lines 235-239) does not mention `results`, so
the stored `results` is untouched on failure. -/
def applyOp (e : Execution) : StorageOp → Execution
  | .setCurrent n => { e with currentNodeId := some n }
  | .appendLog entry => { e with logs := e.logs ++ [entry] }
  | .markFailed t =>
      { e with status := "failed", completedAt := some t, currentNodeId := none }
  | .markCompleted t rs =>
      { e with status := "completed", completedAt := some t,
               currentNodeId := none, results := some rs }
  | .markStopped t => { e with status := "stopped", completedAt := some t }

/-- Replay a sequence of storage updates. -/
def runStorage (e : Execution) (ops : List StorageOp) : Execution :=
  ops.foldl applyOp e

/-- The execution record created by `POST /api/workflows/:id/execute`
(routes.ts lines 77-80 plus `MemStorage.createExecution`): status
`running`, empty logs, no results. -/
def initialExecution (id workflowId now : String) : Execution :=
  { id := id, workflowId := workflowId, status := "running", startedAt := now,
    completedAt := none, currentNodeId := none, logs := [], results := none }

/-- The engine environment: the node registry (type tag to executor) and
the timestamp source (`new Date().toISOString()`, abstracted as one
string; no claim depends on distinct timestamps). -/
structure EngineEnv where
  registry : String → Option (List Rec → Rec → Except String (List Rec))
  now : String

/-- The registry installed by the `WorkflowEngine` constructor
(workflow-engine.ts lines 95-101), with the HTTP transport oracle passed
through to `FetchApiNode`. -/
def stdRegistry (axios : AxiosConfig → AxiosOutcome) (now : String) :
    String → Option (List Rec → Rec → Except String (List Rec)) :=
  fun t =>
    if t = "StartNode" then some (startNodeExecute now)
    else if t = "FetchApiNode" then some (fetchApiExecute axios)
    else if t = "LogMessageNode" then some (logMessageExecute now)
    else if t = "IfNode" then some ifNodeExecute
    else none

/-- Input gathering for one node (workflow-engine.ts lines 209-220): all
connections whose `to` is this node, concatenating the stored result lists
of their `from` nodes in connection-list order (a `from` with no stored
entry contributes nothing); a node with no incoming connections gets a
single empty record. -/
def gatherInputs (conns : List Connection) (results : List (String × List Rec))
    (nodeId : String) : List Rec :=
  let inputConnections := conns.filter (fun c => c.to_ = nodeId)
  if inputConnections.isEmpty then [([] : Rec)]
  else
    inputConnections.foldl
      (fun acc c =>
        match mapGet results c.from_ with
        | some rs => acc ++ rs
        | none => acc) []

/-- One recorded node-executor invocation: the node, the inputs passed,
and the in-memory `executionResults` at the moment of the call. -/
structure Invocation where
  nodeId : String
  inputs : List Rec
  resultsBefore : List (String × List Rec)
deriving DecidableEq

/-- How a run of `executeWorkflow` ended: every node succeeded
(`completed`), a node-level failure was caught by the inner catch
(`failedAtNode`), or a thrown scheduling / lookup error reached the outer
catch (`engineError`). -/
inductive RunOutcome where
  | completed
  | failedAtNode (nodeId : String)
  | engineError (msg : String)
deriving DecidableEq

/-- The observable effects of one `executeWorkflow` call: the storage
updates it issued in order, the executor invocations it made, the final
in-memory `executionResults`, and how it ended. -/
structure RunResult where
  ops : List StorageOp
  invocations : List Invocation
  results : List (String × List Rec)
  outcome : RunOutcome
deriving DecidableEq

/-- Shorthand for the engine's log writes (`addLog`). -/
def logOp (env : EngineEnv) (level message : String) (nodeId : Option String) :
    StorageOp :=
  .appendLog { timestamp := env.now, level := level, message := message,
               nodeId := nodeId }

/-- Rendering of `JSON.stringify(outputData, null, 2)` for the per-node
output log.  The pretty-printing whitespace of the two-space indent form
is abstracted to the compact form; no claim inspects this message text. -/
def stringifyResults (outputData : List Rec) : String :=
  jsonStringify (.jarr (outputData.map JValue.jobj))

/-- The per-node for loop of `executeWorkflow` (workflow-engine.ts lines
187-242), accumulating storage updates, invocations and results.  The
loop never reads the stored execution record other than inside `addLog`
(which only reads `logs`), and in particular never reads `status`. -/
def runNodes (env : EngineEnv) (wf : Workflow) :
    List String → List (String × List Rec) → List StorageOp → List Invocation →
    RunResult
  | [], results, ops, invs =>
      { ops := ops ++ [logOp env "info" "--- Workflow Finished Successfully ---" none,
                       .markCompleted env.now results],
        invocations := invs, results := results, outcome := .completed }
  | nodeId :: rest, results, ops, invs =>
      let ops1 := ops ++ [.setCurrent nodeId]
      match wf.nodes.find? (fun n => n.id = nodeId) with
      | none =>
          { ops := ops1 ++
              [logOp env "error"
                ("Workflow execution failed: Node configuration not found for " ++ nodeId) none,
               .markFailed env.now],
            invocations := invs, results := results,
            outcome := .engineError ("Node configuration not found for " ++ nodeId) }
      | some nodeConfig =>
          let ops2 := ops1 ++
            [logOp env "info"
              ("Executing Node: " ++ nodeConfig.id ++ " (" ++ nodeConfig.type ++ ")")
              (some nodeId)]
          match env.registry nodeConfig.type with
          | none =>
              { ops := ops2 ++
                  [logOp env "error"
                    ("ERROR: Node type \"" ++ nodeConfig.type ++ "\" is not registered")
                    (some nodeId),
                   .markFailed env.now],
                invocations := invs, results := results,
                outcome := .failedAtNode nodeId }
          | some exec =>
              let inputData := gatherInputs wf.connections results nodeId
              let invs1 := invs ++
                [{ nodeId := nodeId, inputs := inputData, resultsBefore := results }]
              match exec inputData ((nodeConfig.params).getD []) with
              | .error msg =>
                  { ops := ops2 ++
                      [logOp env "error" ("ERROR: " ++ msg) (some nodeId),
                       .markFailed env.now],
                    invocations := invs1, results := results,
                    outcome := .failedAtNode nodeId }
              | .ok outputData =>
                  runNodes env wf rest (mapSet results nodeConfig.id outputData)
                    (ops2 ++ [logOp env "info"
                      ("Output: " ++ stringifyResults outputData) (some nodeId)])
                    invs1

/-- `WorkflowEngine.executeWorkflow` (workflow-engine.ts lines 177-261):
the opening logs, the scheduling call (whose thrown error reaches the
outer catch, which logs and marks the execution failed), and the per-node
loop. -/
def executeWorkflow (env : EngineEnv) (wf : Workflow) : RunResult :=
  let ops0 := [logOp env "info" "--- Workflow Starting ---" none,
               logOp env "info" ("Executing workflow: " ++ wf.name) none]
  match getExecutionOrder wf.nodes wf.connections with
  | .error msg =>
      { ops := ops0 ++
          [logOp env "error" ("Workflow execution failed: " ++ msg) none,
           .markFailed env.now],
        invocations := [], results := [], outcome := .engineError msg }
  | .ok order =>
      runNodes env wf order [] (ops0 ++
        [logOp env "info" ("Execution order: " ++ joinSep " -> " order) none]) []

theorem mapGet_mapSet {α : Type} (m : List (String × α)) (k k1 : String) (v : α) :
    mapGet (mapSet m k v) k1 = if k1 = k then some v else mapGet m k1 := by
  induction m with
  | nil =>
      by_cases h : k1 = k
      · subst h; simp [mapSet, mapGet, List.find?]
      · simp [mapSet, mapGet, List.find?, h, Ne.symm h]
  | cons p rest ih =>
      obtain ⟨k2, v2⟩ := p
      by_cases h2 : k2 = k
      · subst h2
        by_cases h : k1 = k2
        · subst h; simp [mapSet, mapGet, List.find?]
        · simp [mapSet, mapGet, List.find?, h, Ne.symm h]
      · simp only [mapSet, if_neg h2]
        by_cases h : k1 = k2
        · subst h
          simp [mapGet, List.find?, h2]
        · have hne : ¬ k2 = k1 := fun hc => h hc.symm
          simp only [mapGet, List.find?, show (decide (k2 = k1)) = false from by simp [hne]]
          exact ih

theorem mapGet_eq_none_of_not_key {α : Type} (m : List (String × α)) (k : String)
    (h : ∀ p ∈ m, p.1 ≠ k) : mapGet m k = none := by
  induction m with
  | nil => simp [mapGet]
  | cons p rest ih =>
      simp only [mapGet, List.find?]
      have hp : p.1 ≠ k := h p (by simp)
      simp only [show (decide (p.1 = k)) = false from by simp [hp]]
      exact ih fun q hq => h q (by simp [hq])

theorem mapSet_append_of_not_key {α : Type} (m : List (String × α)) (k : String) (v : α)
    (h : ∀ p ∈ m, p.1 ≠ k) : mapSet m k v = m ++ [(k, v)] := by
  induction m with
  | nil => simp [mapSet]
  | cons p rest ih =>
      obtain ⟨k2, v2⟩ := p
      have hp : k2 ≠ k := h (k2, v2) (by simp)
      simp only [mapSet, if_neg hp, List.cons_append, List.cons.injEq, true_and]
      exact ih fun q hq => h q (by simp [hq])

theorem mapGet_cons {α : Type} (k2 : String) (v2 : α) (rest : List (String × α)) (k : String) :
    mapGet ((k2, v2) :: rest) k = if k2 = k then some v2 else mapGet rest k := by
  by_cases h : k2 = k <;> simp [mapGet, List.find?, h]

theorem sumPos_append {m1 m2 : List (String × Int)} :
    sumPos (m1 ++ m2) = sumPos m1 + sumPos m2 := by
  simp [sumPos]

theorem mapGet_none_keys {α : Type} {m : List (String × α)} {k : String}
    (hget : mapGet m k = none) : ∀ p ∈ m, p.1 ≠ k := by
  induction m with
  | nil => simp
  | cons q rest ih =>
      obtain ⟨k2, v2⟩ := q
      rw [mapGet_cons] at hget
      by_cases h2 : k2 = k
      · rw [if_pos h2] at hget; simp at hget
      · rw [if_neg h2] at hget
        intro p hp
        simp only [List.mem_cons] at hp
        rcases hp with hp | hp
        · subst hp; exact h2
        · exact ih hget p hp

theorem sumPos_mapSet_some {m : List (String × Int)} {k : String} {d : Int} (v : Int)
    (hget : mapGet m k = some d) :
    sumPos (mapSet m k v) + d.toNat = sumPos m + v.toNat := by
  induction m with
  | nil => simp [mapGet] at hget
  | cons p rest ih =>
      obtain ⟨k2, v2⟩ := p
      rw [mapGet_cons] at hget
      by_cases h2 : k2 = k
      · rw [if_pos h2] at hget
        cases hget
        simp only [mapSet, if_pos h2, sumPos, List.map_cons, List.sum_cons]
        omega
      · rw [if_neg h2] at hget
        have := ih hget
        simp only [mapSet, if_neg h2, sumPos, List.map_cons, List.sum_cons] at *
        omega

theorem sumPos_mapSet_none {m : List (String × Int)} {k : String} (v : Int)
    (hget : mapGet m k = none) :
    sumPos (mapSet m k v) = sumPos m + v.toNat := by
  rw [mapSet_append_of_not_key m k v (mapGet_none_keys hget), sumPos_append]
  simp [sumPos]

theorem processNeighbor_measure (st : List (String × Int) × List String) (nb : String) :
    sumPos (processNeighbor st nb).1 + (processNeighbor st nb).2.length ≤
      sumPos st.1 + st.2.length := by
  cases hget : mapGet st.1 nb with
  | none =>
      have h := sumPos_mapSet_none (-1) hget
      simp only [processNeighbor, hget]
      omega
  | some d =>
      have h := sumPos_mapSet_some (d - 1) hget
      by_cases hz : d - 1 = 0
      · simp only [processNeighbor, hget, if_pos hz, List.length_append,
          List.length_cons, List.length_nil]
        omega
      · simp only [processNeighbor, hget, if_neg hz]
        omega

theorem processNeighbor_queue (st : List (String × Int) × List String) (nb : String) :
    ∃ e, (processNeighbor st nb).2 = st.2 ++ e := by
  cases hget : mapGet st.1 nb with
  | none => exact ⟨[], by simp [processNeighbor, hget]⟩
  | some d =>
      by_cases hz : d - 1 = 0
      · exact ⟨[nb], by simp [processNeighbor, hget, hz]⟩
      · exact ⟨[], by simp [processNeighbor, hget, hz]⟩

theorem foldPN_measure (nbs : List String) :
    ∀ st : List (String × Int) × List String,
    sumPos (nbs.foldl processNeighbor st).1 + (nbs.foldl processNeighbor st).2.length ≤
      sumPos st.1 + st.2.length := by
  induction nbs with
  | nil => intro st; simp
  | cons nb rest ih =>
      intro st
      calc sumPos ((nb :: rest).foldl processNeighbor st).1 +
            ((nb :: rest).foldl processNeighbor st).2.length
          = sumPos (rest.foldl processNeighbor (processNeighbor st nb)).1 +
            (rest.foldl processNeighbor (processNeighbor st nb)).2.length := by
            simp [List.foldl]
        _ ≤ sumPos (processNeighbor st nb).1 + (processNeighbor st nb).2.length :=
            ih (processNeighbor st nb)
        _ ≤ sumPos st.1 + st.2.length := processNeighbor_measure st nb

theorem foldPN_queue_extends (nbs : List String) :
    ∀ st : List (String × Int) × List String,
    ∃ ext, (nbs.foldl processNeighbor st).2 = st.2 ++ ext := by
  induction nbs with
  | nil => intro st; exact ⟨[], by simp⟩
  | cons nb rest ih =>
      intro st
      obtain ⟨e, he⟩ := processNeighbor_queue st nb
      obtain ⟨ext1, hext1⟩ := ih (processNeighbor st nb)
      refine ⟨e ++ ext1, ?_⟩
      simp only [List.foldl]
      rw [hext1, he, List.append_assoc]

theorem kahnLoop_extends (graph : List (String × List String)) :
    ∀ fuel indeg queue order,
    sumPos indeg + queue.length ≤ fuel →
    ∃ rest, kahnLoop graph fuel indeg queue order = order ++ queue ++ rest := by
  intro fuel
  induction fuel with
  | zero =>
      intro indeg queue order hfuel
      cases queue with
      | nil => exact ⟨[], by simp [kahnLoop]⟩
      | cons q qt => simp at hfuel
  | succ fuel ih =>
      intro indeg queue order hfuel
      cases queue with
      | nil => exact ⟨[], by simp [kahnLoop]⟩
      | cons q qt =>
          simp only [kahnLoop]
          have hm : sumPos (((mapGet graph q).getD []).foldl processNeighbor (indeg, qt)).1 +
              (((mapGet graph q).getD []).foldl processNeighbor (indeg, qt)).2.length ≤
              sumPos indeg + qt.length :=
            foldPN_measure _ (indeg, qt)
          have hfuel1 : sumPos (((mapGet graph q).getD []).foldl processNeighbor (indeg, qt)).1 +
              (((mapGet graph q).getD []).foldl processNeighbor (indeg, qt)).2.length ≤ fuel := by
            simp only [List.length_cons] at hfuel
            omega
          obtain ⟨ext, hext⟩ := foldPN_queue_extends ((mapGet graph q).getD []) (indeg, qt)
          obtain ⟨rest1, hrest1⟩ :=
            ih _ _ (order ++ [q]) hfuel1
          refine ⟨ext ++ rest1, ?_⟩
          rw [hrest1, hext]
          simp

/-- Count the elements satisfying a Boolean predicate (structural, so
concrete evaluations reduce in the kernel). -/
def countIf {α : Type} (p : α → Bool) : List α → Nat
  | [] => 0
  | a :: l => (if p a then 1 else 0) + countIf p l

/-- Initial in-degree of `v`: the number of connections into `v`. -/
def initDeg (conns : List Connection) (v : String) : Nat :=
  countIf (fun c => c.to_ = v) conns

/-- Number of connections into `v` whose source node is already in the
processed order (each processed node decrements its outgoing edges once). -/
def cntProc (conns : List Connection) (order : List String) (v : String) : Nat :=
  countIf (fun c => c.to_ = v ∧ c.from_ ∈ order) conns

/-- The adjacency list of `u` built by the connection pass: the targets of
the connections out of `u`, in connection-list order. -/
def adjOf (conns : List Connection) (u : String) : List String :=
  (conns.filter (fun c => c.from_ = u)).map (fun c => c.to_)

theorem countIf_mono_of_imp {α : Type} (l : List α) (p q : α → Bool)
    (h : ∀ a ∈ l, p a = true → q a = true) : countIf p l ≤ countIf q l := by
  induction l with
  | nil => simp [countIf]
  | cons a rest ih =>
      have hrest := ih fun b hb => h b (by simp [hb])
      have ha := h a (by simp)
      simp only [countIf]
      by_cases hp : p a = true
      · rw [if_pos hp, if_pos (ha hp)]
        omega
      · rw [if_neg hp]
        by_cases hq : q a = true
        · rw [if_pos hq]; omega
        · rw [if_neg hq]; omega

theorem countIf_split_disjoint {α : Type} (l : List α) (p q r : α → Bool)
    (h : ∀ a ∈ l, (r a = true ↔ (p a = true ∨ q a = true)) ∧ ¬(p a = true ∧ q a = true)) :
    countIf r l = countIf p l + countIf q l := by
  induction l with
  | nil => simp [countIf]
  | cons a rest ih =>
      have hrest := ih fun b hb => h b (by simp [hb])
      obtain ⟨hiff, hdisj⟩ := h a (by simp)
      simp only [countIf]
      by_cases hp : p a = true
      · have hq : ¬ q a = true := fun hq => hdisj ⟨hp, hq⟩
        rw [if_pos hp, if_neg hq, if_pos (hiff.mpr (Or.inl hp))]
        omega
      · by_cases hq : q a = true
        · rw [if_neg hp, if_pos hq, if_pos (hiff.mpr (Or.inr hq))]
          omega
        · have hr : ¬ r a = true := fun hr => by
            rcases hiff.mp hr with hx | hx
            · exact hp hx
            · exact hq hx
          rw [if_neg hp, if_neg hq, if_neg hr]
          omega

theorem countIf_eq_of_imp_pointwise {α : Type} (l : List α) (p q : α → Bool)
    (himp : ∀ a ∈ l, p a = true → q a = true) (heq : countIf p l = countIf q l) :
    ∀ a ∈ l, q a = true → p a = true := by
  induction l with
  | nil => simp
  | cons a rest ih =>
      have hle : countIf p rest ≤ countIf q rest :=
        countIf_mono_of_imp rest p q fun b hb => himp b (by simp [hb])
      simp only [countIf] at heq
      have hhead : (if p a then 1 else 0) ≤ (if q a then (1 : Nat) else 0) := by
        by_cases hp : p a = true
        · rw [if_pos hp, if_pos (himp a (by simp) hp)]
        · rw [if_neg hp]; omega
      have hresteq : countIf p rest = countIf q rest := by omega
      have hheadeq : (if p a then 1 else 0) = (if q a then (1 : Nat) else 0) := by omega
      intro b hb hq
      simp only [List.mem_cons] at hb
      rcases hb with hb | hb
      · subst hb
        by_cases hp : p b = true
        · exact hp
        · rw [if_neg hp, if_pos hq] at hheadeq
          simp at hheadeq
      · exact ih (fun x hx => himp x (by simp [hx])) hresteq b hb hq

theorem count_adjOf (conns : List Connection) (u v : String) :
    countIf (fun x => x = v) (adjOf conns u) =
      countIf (fun c => c.from_ = u ∧ c.to_ = v) conns := by
  induction conns with
  | nil => simp [adjOf, countIf]
  | cons c rest ih =>
      simp only [adjOf, List.filter_cons] at *
      by_cases hf : c.from_ = u
      · rw [if_pos (by simp [hf])]
        simp only [List.map_cons, countIf]
        rw [ih]
        by_cases ht : c.to_ = v
        · rw [if_pos (by simp [ht]), if_pos (by simp [hf, ht])]
        · rw [if_neg (by simp [ht]), if_neg (by simp [ht])]
      · rw [if_neg (by simp [hf])]
        simp only [countIf]
        rw [ih]
        rw [if_neg (by simp [hf])]
        omega

theorem cntProc_le_initDeg (conns : List Connection) (order : List String) (v : String) :
    cntProc conns order v ≤ initDeg conns v :=
  countIf_mono_of_imp conns _ _ (fun c _ h => by
    simp only [decide_eq_true_eq] at h ⊢
    exact h.1)

theorem cntProc_mono (conns : List Connection) {order1 order2 : List String} (v : String)
    (hsub : ∀ x ∈ order1, x ∈ order2) :
    cntProc conns order1 v ≤ cntProc conns order2 v :=
  countIf_mono_of_imp conns _ _ (fun c _ h => by
    simp only [decide_eq_true_eq] at h ⊢
    exact ⟨h.1, hsub _ h.2⟩)

theorem cntProc_append_singleton (conns : List Connection) (order : List String)
    (u : String) (hu : u ∉ order) (v : String) :
    cntProc conns (order ++ [u]) v =
      cntProc conns order v + countIf (fun c => c.from_ = u ∧ c.to_ = v) conns := by
  apply countIf_split_disjoint
  intro c _
  constructor
  · constructor
    · intro h
      simp only [decide_eq_true_eq, List.mem_append, List.mem_singleton] at h
      rcases h.2 with h2 | h2
      · exact Or.inl (by simp only [decide_eq_true_eq]; exact ⟨h.1, h2⟩)
      · exact Or.inr (by simp only [decide_eq_true_eq]; exact ⟨h2, h.1⟩)
    · intro h
      simp only [decide_eq_true_eq] at h ⊢
      rcases h with h | h
      · exact ⟨h.1, by simp [h.2]⟩
      · exact ⟨h.2, by simp [h.1]⟩
  · intro h
    simp only [decide_eq_true_eq] at h
    exact hu (h.2.1 ▸ h.1.2)

theorem append_singleton_eq_split {α : Type} (l : List α) (u : α) (o1 o2 : List α) (b : α)
    (h : l ++ [u] = o1 ++ b :: o2) :
    (o2 = [] ∧ o1 = l ∧ b = u) ∨ ∃ o2s, l = o1 ++ b :: o2s := by
  rcases List.eq_nil_or_concat o2 with h2 | ⟨o2s, z, rfl⟩
  · subst h2
    have := List.append_inj' h (by simp)
    exact Or.inl ⟨rfl, this.1.symm, by simpa using this.2.symm⟩
  · have hre : l ++ [u] = (o1 ++ b :: o2s) ++ [z] := by
      rw [h]; simp
    have := List.append_inj' hre (by simp)
    exact Or.inr ⟨o2s, this.1⟩

theorem foldPN_spec (nbs : List String) :
    ∀ (indeg : List (String × Int)) (queue : List String),
    (∀ v ∈ nbs, (mapGet indeg v).isSome = true) →
    ∃ newly,
      (nbs.foldl processNeighbor (indeg, queue)).2 = queue ++ newly ∧
      (∀ v d0, mapGet indeg v = some d0 →
        mapGet (nbs.foldl processNeighbor (indeg, queue)).1 v =
          some (d0 - (countIf (fun x => x = v) nbs : Int))) ∧
      newly.Nodup ∧
      (∀ v, v ∈ newly ↔ ∃ d0, mapGet indeg v = some d0 ∧ 1 ≤ d0 ∧
        d0 ≤ (countIf (fun x => x = v) nbs : Int)) := by
  induction nbs with
  | nil =>
      intro indeg queue _
      refine ⟨[], by simp, ?_, by simp, ?_⟩
      · intro v d0 h
        simpa [countIf] using h
      · intro v
        simp only [List.not_mem_nil, false_iff, countIf]
        rintro ⟨d0, _, h1, h2⟩
        omega
  | cons nb rest ih =>
      intro indeg queue hsome
      obtain ⟨d, hd⟩ := Option.isSome_iff_exists.mp (hsome nb (by simp))
      have hstep : processNeighbor (indeg, queue) nb =
          (mapSet indeg nb (d - 1), if d - 1 = 0 then queue ++ [nb] else queue) := by
        simp [processNeighbor, hd]
      have hsome1 : ∀ v ∈ rest, (mapGet (mapSet indeg nb (d - 1)) v).isSome = true := by
        intro v hv
        rw [mapGet_mapSet]
        by_cases h : v = nb
        · simp [h]
        · rw [if_neg h]
          exact hsome v (by simp [hv])
      obtain ⟨newly1, h1, h2, h3, h4⟩ :=
        ih (mapSet indeg nb (d - 1)) (if d - 1 = 0 then queue ++ [nb] else queue) hsome1
      have hfold : (nb :: rest).foldl processNeighbor (indeg, queue) =
          rest.foldl processNeighbor
            (mapSet indeg nb (d - 1), if d - 1 = 0 then queue ++ [nb] else queue) := by
        simp only [List.foldl, hstep]
      refine ⟨if d - 1 = 0 then nb :: newly1 else newly1, ?_, ?_, ?_, ?_⟩
      · rw [hfold, h1]
        by_cases hz : d - 1 = 0
        · rw [if_pos hz, if_pos hz]
          simp
        · rw [if_neg hz, if_neg hz]
      · intro v d0 hv
        rw [hfold]
        by_cases h : v = nb
        · subst h
          have hd0 : d0 = d := by rw [hv] at hd; injection hd
          subst hd0
          have hget1 : mapGet (mapSet indeg v (d0 - 1)) v = some (d0 - 1) := by
            rw [mapGet_mapSet]; simp
          have := h2 v (d0 - 1) hget1
          rw [this]
          simp only [countIf]
          rw [if_pos (by simp)]
          congr 1
          push_cast
          ring
        · have hget1 : mapGet (mapSet indeg nb (d - 1)) v = some d0 := by
            rw [mapGet_mapSet, if_neg h]
            exact hv
          have := h2 v d0 hget1
          rw [this]
          simp only [countIf]
          rw [if_neg (by simp [Ne.symm h])]
          congr 2
          omega
      · by_cases hz : d - 1 = 0
        · rw [if_pos hz]
          refine List.nodup_cons.mpr ⟨?_, h3⟩
          intro hmem
          obtain ⟨d1, hd1, hge, _⟩ := (h4 nb).mp hmem
          rw [mapGet_mapSet, if_pos rfl] at hd1
          injection hd1 with hd1
          omega
        · rw [if_neg hz]
          exact h3
      · intro v
        by_cases h : v = nb
        · subst h
          constructor
          · intro hmem
            by_cases hz : d - 1 = 0
            · refine ⟨d, hd, by omega, ?_⟩
              simp only [countIf]
              rw [if_pos (by simp)]
              push_cast
              omega
            · rw [if_neg hz] at hmem
              obtain ⟨d1, hd1, hge, hle⟩ := (h4 v).mp hmem
              rw [mapGet_mapSet, if_pos rfl] at hd1
              injection hd1 with hd1
              refine ⟨d, hd, by omega, ?_⟩
              simp only [countIf]
              rw [if_pos (by simp)]
              push_cast
              omega
          · rintro ⟨d0, hd0, hge, hle⟩
            have hd0d : d0 = d := by rw [hd0] at hd; injection hd
            subst hd0d
            by_cases hz : d0 - 1 = 0
            · rw [if_pos hz]; simp
            · rw [if_neg hz]
              apply (h4 v).mpr
              refine ⟨d0 - 1, by rw [mapGet_mapSet, if_pos rfl], by omega, ?_⟩
              simp only [countIf] at hle
              rw [if_pos (by simp)] at hle
              push_cast at hle ⊢
              omega
        · have hmemiff : (v ∈ if d - 1 = 0 then nb :: newly1 else newly1) ↔ v ∈ newly1 := by
            by_cases hz : d - 1 = 0
            · rw [if_pos hz]
              simp [h]
            · rw [if_neg hz]
          rw [hmemiff, h4 v]
          have hget1 : mapGet (mapSet indeg nb (d - 1)) v = mapGet indeg v := by
            rw [mapGet_mapSet, if_neg h]
          rw [hget1]
          have hcnt : countIf (fun x => x = v) (nb :: rest) =
              countIf (fun x => x = v) rest := by
            simp only [countIf]
            rw [if_neg (by simp [Ne.symm h])]
            omega
          rw [hcnt]

theorem mem_of_countIf_pos {α : Type} [DecidableEq α] (l : List α) (v : α)
    (h : 1 ≤ countIf (fun x => x = v) l) : v ∈ l := by
  induction l with
  | nil => simp [countIf] at h
  | cons a rest ih =>
      by_cases ha : a = v
      · simp [ha]
      · have hfalse : (decide (a = v)) = false := by
          simp [ha]
        simp [countIf, hfalse] at h
        exact List.mem_cons_of_mem a (ih h)

theorem kahn_invariant (conns : List Connection) (ids : List String)
    (graph : List (String × List String))
    (hgraph : ∀ u ∈ ids, mapGet graph u = some (adjOf conns u))
    (hvalid : ∀ c ∈ conns, c.from_ ∈ ids ∧ c.to_ ∈ ids) :
    ∀ fuel indeg queue order,
    sumPos indeg + queue.length ≤ fuel →
    (order ++ queue).Nodup →
    (∀ v ∈ order ++ queue, v ∈ ids) →
    (∀ v ∈ ids, mapGet indeg v =
      some ((initDeg conns v : Int) - (cntProc conns order v : Int))) →
    (∀ v ∈ order ++ queue, cntProc conns order v = initDeg conns v) →
    (∀ c ∈ conns, (c.to_ ∈ queue → c.from_ ∈ order) ∧
      (∀ o1 o2, order = o1 ++ c.to_ :: o2 → c.from_ ∈ o1)) →
    (kahnLoop graph fuel indeg queue order).Nodup ∧
    (∀ v ∈ kahnLoop graph fuel indeg queue order, v ∈ ids) ∧
    (∀ c ∈ conns, ∀ o1 o2, kahnLoop graph fuel indeg queue order = o1 ++ c.to_ :: o2 →
      c.from_ ∈ o1) := by
  intro fuel
  induction fuel with
  | zero =>
      intro indeg queue order hfuel hno hids _hdeg _hmem hedge
      cases queue with
      | nil =>
          simp only [kahnLoop]
          exact ⟨by simpa using hno, by simpa using hids,
            fun c hc o1 o2 hsplit => (hedge c hc).2 o1 o2 hsplit⟩
      | cons q qt => simp at hfuel
  | succ fuel ih =>
      intro indeg queue order hfuel hno hids hdeg hmem hedge
      cases queue with
      | nil =>
          simp only [kahnLoop]
          exact ⟨by simpa using hno, by simpa using hids,
            fun c hc o1 o2 hsplit => (hedge c hc).2 o1 o2 hsplit⟩
      | cons u qt =>
          have hu_ids : u ∈ ids := hids u (by simp)
          have hadj : mapGet graph u = some (adjOf conns u) := hgraph u hu_ids
          have hnbs_ids : ∀ v ∈ adjOf conns u, v ∈ ids := by
            intro v hv
            simp only [adjOf, List.mem_map, List.mem_filter] at hv
            obtain ⟨c, ⟨hc, _⟩, rfl⟩ := hv
            exact (hvalid c hc).2
          have hsome : ∀ v ∈ adjOf conns u, (mapGet indeg v).isSome = true := by
            intro v hv
            rw [hdeg v (hnbs_ids v hv)]
            rfl
          obtain ⟨newly, hq, hdegf, hnodup_newly, hnewly⟩ :=
            foldPN_spec (adjOf conns u) indeg qt hsome
          have hu_not_order : u ∉ order := by
            have := hno
            rw [List.nodup_append] at this
            intro hmemu
            exact this.2.2 hmemu (by simp)
          have hcnt_app : ∀ v, cntProc conns (order ++ [u]) v =
              cntProc conns order v + countIf (fun c => c.from_ = u ∧ c.to_ = v) conns :=
            fun v => cntProc_append_singleton conns order u hu_not_order v
          have hdeg2 : ∀ v ∈ ids,
              mapGet ((adjOf conns u).foldl processNeighbor (indeg, qt)).1 v =
                some ((initDeg conns v : Int) - (cntProc conns (order ++ [u]) v : Int)) := by
            intro v hv
            have h0 := hdegf v _ (hdeg v hv)
            rw [h0]
            congr 1
            rw [count_adjOf, hcnt_app v]
            push_cast
            ring
          have hnewly_props : ∀ v ∈ newly, v ∈ ids ∧
              cntProc conns (order ++ [u]) v = initDeg conns v ∧
              v ∉ order ++ u :: qt := by
            intro v hv
            obtain ⟨d0, hd0, hge, hle⟩ := (hnewly v).mp hv
            have hv_adj : v ∈ adjOf conns u := by
              apply mem_of_countIf_pos
              omega
            have hv_ids : v ∈ ids := hnbs_ids v hv_adj
            have hd0v : d0 = (initDeg conns v : Int) - (cntProc conns order v : Int) := by
              have := hdeg v hv_ids
              rw [hd0] at this
              injection this
            have hle2 : cntProc conns (order ++ [u]) v ≤ initDeg conns v :=
              cntProc_le_initDeg conns (order ++ [u]) v
            have hcnt_new : cntProc conns (order ++ [u]) v = initDeg conns v := by
              rw [count_adjOf] at hle
              have happ := hcnt_app v
              omega
            refine ⟨hv_ids, hcnt_new, ?_⟩
            intro hvmem
            have := hmem v hvmem
            omega
          refine ?_
          have hunfold : kahnLoop graph (fuel + 1) indeg (u :: qt) order =
              kahnLoop graph fuel
                ((adjOf conns u).foldl processNeighbor (indeg, qt)).1
                ((adjOf conns u).foldl processNeighbor (indeg, qt)).2
                (order ++ [u]) := by
            simp only [kahnLoop, hadj, Option.getD_some]
          rw [hunfold, hq]
          have hfuel1 : sumPos ((adjOf conns u).foldl processNeighbor (indeg, qt)).1 +
              (qt ++ newly).length ≤ fuel := by
            have hmsr := foldPN_measure (adjOf conns u) (indeg, qt)
            rw [hq] at hmsr
            have hmsr2 : sumPos ((adjOf conns u).foldl processNeighbor (indeg, qt)).1 +
                (qt ++ newly).length ≤ sumPos indeg + qt.length := hmsr
            simp only [List.length_cons] at hfuel
            omega
          apply ih _ (qt ++ newly) (order ++ [u]) hfuel1
          · have hrearr : (order ++ [u]) ++ (qt ++ newly) = (order ++ u :: qt) ++ newly := by
              simp
            rw [hrearr]
            apply List.Nodup.append hno hnodup_newly
            intro a ha1 ha2
            exact (hnewly_props a ha2).2.2 ha1
          · intro v hv
            have hv2 : v ∈ order ∨ v = u ∨ v ∈ qt ∨ v ∈ newly := by
              simp only [List.mem_append, List.mem_singleton, List.mem_cons] at hv
              tauto
            rcases hv2 with hv | hv | hv | hv
            · exact hids v (by simp [hv])
            · exact hids v (by simp [hv])
            · exact hids v (by simp [hv])
            · exact (hnewly_props v hv).1
          · exact hdeg2
          · intro v hv
            have hv2 : v ∈ order ∨ v = u ∨ v ∈ qt ∨ v ∈ newly := by
              simp only [List.mem_append, List.mem_singleton, List.mem_cons] at hv
              tauto
            rcases hv2 with hv | hv | hv | hv
            · have h0 := hmem v (by simp [hv])
              have h1 : cntProc conns order v ≤ cntProc conns (order ++ [u]) v :=
                cntProc_mono conns v (by intro x hx; simp [hx])
              have h2 := cntProc_le_initDeg conns (order ++ [u]) v
              omega
            · have h0 := hmem v (by simp [hv])
              have h1 : cntProc conns order v ≤ cntProc conns (order ++ [u]) v :=
                cntProc_mono conns v (by intro x hx; simp [hx])
              have h2 := cntProc_le_initDeg conns (order ++ [u]) v
              omega
            · have h0 := hmem v (by simp [hv])
              have h1 : cntProc conns order v ≤ cntProc conns (order ++ [u]) v :=
                cntProc_mono conns v (by intro x hx; simp [hx])
              have h2 := cntProc_le_initDeg conns (order ++ [u]) v
              omega
            · exact (hnewly_props v hv).2.1
          · intro c hc
            constructor
            · intro hto
              simp only [List.mem_append] at hto
              rcases hto with hto | hto
              · have := (hedge c hc).1 (by simp [hto])
                simp [this]
              · have hcnteq := (hnewly_props c.to_ hto).2.1
                have hpt := countIf_eq_of_imp_pointwise conns
                  (fun x => x.to_ = c.to_ ∧ x.from_ ∈ order ++ [u])
                  (fun x => x.to_ = c.to_)
                  (fun a _ h => by
                    simp only [decide_eq_true_eq] at h ⊢
                    exact h.1)
                  hcnteq c hc (by simp)
                simp only [decide_eq_true_eq] at hpt
                exact hpt.2
            · intro o1 o2 hsplit
              rcases append_singleton_eq_split order u o1 o2 c.to_ hsplit with
                ⟨_, ho1, hbu⟩ | ⟨o2s, hord⟩
              · subst ho1
                exact (hedge c hc).1 (by simp [hbu])
              · exact (hedge c hc).2 o1 o2s hord

/-- A map tabulating a function over a key list. -/
def tab {α : Type} (ids : List String) (f : String → α) : List (String × α) :=
  ids.map (fun i => (i, f i))

theorem tab_congr {α : Type} {ids : List String} {f g : String → α}
    (h : ∀ i ∈ ids, f i = g i) : tab ids f = tab ids g := by
  simp only [tab]
  exact List.map_congr_left (fun i hi => by rw [h i hi])

theorem mapGet_tab_mem {α : Type} {ids : List String} (f : String → α) {v : String}
    (hv : v ∈ ids) : mapGet (tab ids f) v = some (f v) := by
  induction ids with
  | nil => simp at hv
  | cons i rest ih =>
      simp only [tab, List.map_cons]
      rw [mapGet_cons]
      by_cases h : i = v
      · rw [if_pos h, h]
      · rw [if_neg h]
        rcases List.mem_cons.mp hv with hv1 | hv1
        · exact absurd hv1.symm h
        · exact ih hv1

theorem mapGet_tab_not_mem {α : Type} {ids : List String} (f : String → α) {v : String}
    (hv : v ∉ ids) : mapGet (tab ids f) v = none := by
  induction ids with
  | nil => simp [tab, mapGet]
  | cons i rest ih =>
      simp only [tab, List.map_cons]
      rw [mapGet_cons]
      have h1 : i ≠ v := fun h => hv (by simp [h])
      rw [if_neg h1]
      exact ih (fun h => hv (by simp [h]))

theorem mapHas_eq_isSome {α : Type} (m : List (String × α)) (k : String) :
    mapHas m k = (mapGet m k).isSome := by
  simp only [mapHas, mapGet]
  cases m.find? (fun p => p.1 = k) <;> rfl

theorem mapHas_tab {α : Type} {ids : List String} (f : String → α) (v : String) :
    mapHas (tab ids f) v = true ↔ v ∈ ids := by
  constructor
  · intro h
    by_contra hv
    rw [mapHas_eq_isSome, mapGet_tab_not_mem f hv] at h
    simp at h
  · intro hv
    rw [mapHas_eq_isSome, mapGet_tab_mem f hv]
    rfl

theorem mapSet_tab {α : Type} {ids : List String} (hno : ids.Nodup) (f : String → α)
    {k : String} (hk : k ∈ ids) (x : α) :
    mapSet (tab ids f) k x = tab ids (fun i => if i = k then x else f i) := by
  induction ids with
  | nil => simp at hk
  | cons i rest ih =>
      simp only [tab, List.map_cons, mapSet]
      by_cases h : i = k
      · rw [if_pos h]
        subst h
        have hrest : i ∉ rest := (List.nodup_cons.mp hno).1
        have : tab rest (fun j => if j = i then x else f j) = tab rest f :=
          tab_congr (fun j hj => by
            rw [if_neg (fun hc : j = i => hrest (hc ▸ hj))])
        simp only [tab] at this
        rw [this, if_pos rfl]
      · rw [if_neg h, if_neg h]
        rcases List.mem_cons.mp hk with hk1 | hk1
        · exact absurd hk1.symm h
        · have := ih (List.nodup_cons.mp hno).2 hk1
          simp only [tab] at this
          rw [this]

theorem filter_map_tab (ids : List String) (f : String → Int) :
    ((tab ids f).filter (fun p => p.2 = 0)).map (fun p => p.1) =
      ids.filter (fun i => f i = 0) := by
  induction ids with
  | nil => simp [tab]
  | cons i rest ih =>
      simp only [tab, List.map_cons, List.filter_cons] at *
      by_cases h : f i = 0
      · rw [if_pos (by simp [h]), if_pos (by simp [h])]
        simp only [List.map_cons]
        rw [ih]
      · rw [if_neg (by simp [h]), if_neg (by simp [h])]
        exact ih

theorem countIf_eq_zero_of_all_false {α : Type} {l : List α} {p : α → Bool}
    (h : ∀ a ∈ l, p a = false) : countIf p l = 0 := by
  induction l with
  | nil => rfl
  | cons a rest ih =>
      simp only [countIf, h a (by simp), Bool.false_eq_true, if_false, Nat.zero_add]
      exact ih (fun b hb => h b (by simp [hb]))

theorem countIf_pos_of_mem {α : Type} {l : List α} {p : α → Bool} {a : α}
    (ha : a ∈ l) (hp : p a = true) : 1 ≤ countIf p l := by
  induction l with
  | nil => simp at ha
  | cons b rest ih =>
      simp only [countIf]
      rcases List.mem_cons.mp ha with h | h
      · subst h
        rw [if_pos hp]
        omega
      · have := ih h
        omega

theorem cntProc_nil (conns : List Connection) (v : String) :
    cntProc conns [] v = 0 :=
  countIf_eq_zero_of_all_false (fun c _ => by simp)

theorem foldl_mapSet_const {α : Type} (c0 : α) :
    ∀ (nodes : List WNode) (acc : List (String × α)),
    (nodes.map WNode.id).Nodup →
    (∀ p ∈ acc, p.1 ∉ nodes.map WNode.id) →
    nodes.foldl (fun m n => mapSet m n.id c0) acc =
      acc ++ nodes.map (fun n => (n.id, c0)) := by
  intro nodes
  induction nodes with
  | nil => intro acc _ _; simp
  | cons n rest ih =>
      intro acc hno hdisj
      simp only [List.foldl]
      have hstep : mapSet acc n.id c0 = acc ++ [(n.id, c0)] :=
        mapSet_append_of_not_key acc n.id c0
          (fun p hp => fun hc => hdisj p hp (by simp [hc]))
      rw [hstep]
      simp only [List.map_cons, List.nodup_cons] at hno
      have := ih (acc ++ [(n.id, c0)]) hno.2 ?_
      · rw [this]
        simp
      · intro p hp
        simp only [List.mem_append, List.mem_singleton] at hp
        rcases hp with hp | hp
        · exact fun hc => hdisj p hp (by simp [hc])
        · intro hc
          rw [hp] at hc
          simp only at hc
          exact hno.1 hc

theorem buildInDegree_eq (nodes : List WNode) (hno : (nodes.map WNode.id).Nodup) :
    buildInDegree nodes = tab (nodes.map WNode.id) (fun _ => (0 : Int)) := by
  rw [buildInDegree, foldl_mapSet_const 0 nodes [] hno (by simp)]
  simp [tab]

theorem buildGraphInit_eq (nodes : List WNode) (hno : (nodes.map WNode.id).Nodup) :
    buildGraphInit nodes = tab (nodes.map WNode.id) (fun _ => ([] : List String)) := by
  rw [buildGraphInit, foldl_mapSet_const [] nodes [] hno (by simp)]
  simp [tab]

theorem adjOf_cons (c : Connection) (cs : List Connection) (i : String) :
    adjOf (c :: cs) i = if c.from_ = i then c.to_ :: adjOf cs i else adjOf cs i := by
  by_cases h : c.from_ = i
  · rw [if_pos h]
    simp [adjOf, List.filter_cons, h]
  · rw [if_neg h]
    simp [adjOf, List.filter_cons, h]

theorem initDeg_cons (c : Connection) (cs : List Connection) (v : String) :
    initDeg (c :: cs) v = (if c.to_ = v then 1 else 0) + initDeg cs v := by
  by_cases h : c.to_ = v
  · rw [if_pos h]
    simp [initDeg, countIf, h]
  · rw [if_neg h]
    simp [initDeg, countIf, h]

theorem addConnections_ok (ids : List String) (hno : ids.Nodup) :
    ∀ (cs : List Connection) (g : String → List String) (dgr : String → Int),
    (∀ c ∈ cs, c.from_ ∈ ids ∧ c.to_ ∈ ids) →
    addConnections (tab ids g) (tab ids dgr) cs =
      .ok (tab ids (fun i => g i ++ adjOf cs i),
           tab ids (fun i => dgr i + (initDeg cs i : Int))) := by
  intro cs
  induction cs with
  | nil =>
      intro g dgr _
      simp only [addConnections, Except.ok.injEq, Prod.mk.injEq]
      constructor
      · exact (tab_congr (fun i _ => by simp [adjOf])).symm
      · exact (tab_congr (fun i _ => by simp [initDeg, countIf])).symm
  | cons c cs ih =>
      intro g dgr hv
      have hcf : c.from_ ∈ ids := (hv c (by simp)).1
      have hct : c.to_ ∈ ids := (hv c (by simp)).2
      have hhas1 : mapHas (tab ids g) c.from_ = true := (mapHas_tab g c.from_).mpr hcf
      have hhas2 : mapHas (tab ids g) c.to_ = true := (mapHas_tab g c.to_).mpr hct
      simp only [addConnections, hhas1, hhas2, and_self, not_true_eq_false, if_false]
      rw [mapGet_tab_mem g hcf, mapGet_tab_mem dgr hct]
      simp only [Option.getD_some]
      rw [mapSet_tab hno g hcf, mapSet_tab hno dgr hct]
      rw [ih _ _ (fun x hx => hv x (by simp [hx]))]
      simp only [Except.ok.injEq, Prod.mk.injEq]
      constructor
      · apply tab_congr
        intro i _
        rw [adjOf_cons]
        by_cases h : i = c.from_
        · rw [if_pos h, if_pos (by rw [h]), h]
          simp
        · rw [if_neg h, if_neg (fun hc => h hc.symm)]
      · apply tab_congr
        intro i _
        rw [initDeg_cons]
        by_cases h : i = c.to_
        · rw [if_pos h, if_pos (by rw [h]), h]
          push_cast
          ring
        · rw [if_neg h, if_neg (fun hc => h hc.symm)]
          push_cast
          ring

theorem before_indexOf {l : List String} (hnd : l.Nodup) {a b : String}
    {o1 o2 : List String} (hsplit : l = o1 ++ b :: o2) (ha : a ∈ o1) :
    a ∈ l ∧ b ∈ l ∧ l.indexOf a < l.indexOf b := by
  subst hsplit
  have hbno : b ∉ o1 := by
    rw [List.nodup_append] at hnd
    intro hb
    exact hnd.2.2 hb (by simp)
  refine ⟨by simp [ha], by simp, ?_⟩
  rw [List.indexOf_append_of_mem ha, List.indexOf_append_of_not_mem hbno,
    List.indexOf_cons_self]
  have := List.indexOf_lt_length.mpr ha
  omega

theorem chain_indexOf_lt {E : String → String → Prop} {idx : String → Nat}
    (hE : ∀ a b, E a b → idx a < idx b) :
    ∀ (p : List String) (v w : String), List.Chain E v (p ++ [w]) → idx v < idx w := by
  intro p
  induction p with
  | nil =>
      intro v w hchain
      rcases hchain with _ | ⟨hvw, _⟩
      exact hE _ _ hvw
  | cons x p ih =>
      intro v w hchain
      rcases hchain with _ | ⟨hvx, hrest⟩
      exact Nat.lt_trans (hE _ _ hvx) (ih x w hrest)

theorem getExecutionOrder_tables (nodes : List WNode) (conns : List Connection)
    (hno : (nodes.map WNode.id).Nodup)
    (hvalid : ∀ c ∈ conns, c.from_ ∈ nodes.map WNode.id ∧ c.to_ ∈ nodes.map WNode.id) :
    addConnections (buildGraphInit nodes) (buildInDegree nodes) conns =
      .ok (tab (nodes.map WNode.id) (adjOf conns),
           tab (nodes.map WNode.id) (fun i => (initDeg conns i : Int))) := by
  rw [buildGraphInit_eq nodes hno, buildInDegree_eq nodes hno]
  rw [addConnections_ok (nodes.map WNode.id) hno conns (fun _ => []) (fun _ => 0) hvalid]
  simp only [Except.ok.injEq, Prod.mk.injEq]
  constructor
  · exact tab_congr (fun i _ => by simp)
  · exact tab_congr (fun i _ => by simp)

theorem getExecutionOrder_spec (nodes : List WNode) (conns : List Connection)
    (order : List String)
    (hno : (nodes.map WNode.id).Nodup)
    (hvalid : ∀ c ∈ conns, c.from_ ∈ nodes.map WNode.id ∧ c.to_ ∈ nodes.map WNode.id)
    (hok : getExecutionOrder nodes conns = .ok order) :
    order.Nodup ∧ (∀ v ∈ order, v ∈ nodes.map WNode.id) ∧
    order.length = nodes.length ∧
    (∀ c ∈ conns, ∀ o1 o2, order = o1 ++ c.to_ :: o2 → c.from_ ∈ o1) ∧
    (∃ rest, order =
      (nodes.map WNode.id).filter (fun i => initDeg conns i = 0) ++ rest) := by
  have hadd := getExecutionOrder_tables nodes conns hno hvalid
  rw [getExecutionOrder, hadd] at hok
  simp only at hok
  set ids := nodes.map WNode.id with hids_def
  set indeg := tab ids (fun i => (initDeg conns i : Int)) with hindeg_def
  set graph := tab ids (adjOf conns) with hgraph_def
  set queue := (indeg.filter (fun p => p.2 = 0)).map (fun p => p.1) with hqueue_def
  set ord := kahnLoop graph (sumPos indeg + queue.length) indeg queue [] with hord_def
  by_cases hlen : ord.length ≠ nodes.length
  · rw [if_pos hlen] at hok
    simp at hok
  · rw [if_neg hlen] at hok
    have hord : ord = order := by
      injection hok
    push_neg at hlen
    have hqueue_eq : queue = ids.filter (fun i => initDeg conns i = 0) := by
      rw [hqueue_def, hindeg_def, filter_map_tab]
      apply List.filter_congr
      intro i _
      simp
    have hqueue_deg : ∀ v ∈ queue, initDeg conns v = 0 := by
      intro v hv
      rw [hqueue_eq] at hv
      have := List.of_mem_filter hv
      simpa using this
    have hqueue_sub : ∀ v ∈ queue, v ∈ ids := by
      intro v hv
      rw [hqueue_eq] at hv
      exact List.mem_of_mem_filter hv
    have hinv := kahn_invariant conns ids graph
      (fun u hu => by rw [hgraph_def]; exact mapGet_tab_mem _ hu)
      hvalid
      (sumPos indeg + queue.length) indeg queue []
      (le_refl _)
      (by
        simp only [List.nil_append]
        rw [hqueue_eq]
        exact hno.filter _)
      (by simpa using hqueue_sub)
      (by
        intro v hv
        rw [hindeg_def, mapGet_tab_mem _ hv, cntProc_nil]
        simp)
      (by
        intro v hv
        simp only [List.nil_append] at hv
        rw [cntProc_nil, hqueue_deg v hv])
      (by
        intro c hc
        constructor
        · intro hto
          exfalso
          have h0 := hqueue_deg c.to_ hto
          have h1 : 1 ≤ initDeg conns c.to_ :=
            countIf_pos_of_mem hc (by simp)
          omega
        · intro o1 o2 hsplit
          exact absurd hsplit (by cases o1 <;> simp))
    obtain ⟨hnd, hsub, hsplits⟩ := hinv
    have hordk : order = kahnLoop graph (sumPos indeg + queue.length) indeg queue [] := by
      rw [← hord, hord_def]
    rw [hord] at hlen
    refine ⟨by rw [hordk]; exact hnd, by rw [hordk]; exact hsub, hlen,
      by rw [hordk]; exact hsplits, ?_⟩
    obtain ⟨rest, hrest⟩ := kahnLoop_extends graph
      (sumPos indeg + queue.length) indeg queue [] (le_refl _)
    refine ⟨rest, ?_⟩
    rw [hordk, hrest, hqueue_eq]
    simp

/-- A directed edge of the connection list. -/
def hasEdge (conns : List Connection) (a b : String) : Prop :=
  ∃ c ∈ conns, c.from_ = a ∧ c.to_ = b

/-- The connection set contains a directed cycle: a nonempty edge path
from some vertex back to itself. -/
def isCyclic (conns : List Connection) : Prop :=
  ∃ (v : String) (p : List String), List.Chain (hasEdge conns) v (p ++ [v])

theorem order_perm_ids {nodes : List WNode} {conns : List Connection}
    {order : List String}
    (hno : (nodes.map WNode.id).Nodup)
    (hvalid : ∀ c ∈ conns, c.from_ ∈ nodes.map WNode.id ∧ c.to_ ∈ nodes.map WNode.id)
    (hok : getExecutionOrder nodes conns = .ok order) :
    ∀ v ∈ nodes.map WNode.id, v ∈ order := by
  obtain ⟨hnd, hsub, hlen, _, _⟩ := getExecutionOrder_spec nodes conns order hno hvalid hok
  have hsp : List.Subperm order (nodes.map WNode.id) :=
    List.subperm_of_subset hnd (fun v hv => hsub v hv)
  have hperm : List.Perm order (nodes.map WNode.id) :=
    hsp.perm_of_length_le (by simp [hlen])
  intro v hv
  exact hperm.mem_iff.mpr hv

theorem getExecutionOrder_topological {nodes : List WNode} {conns : List Connection}
    {order : List String}
    (hno : (nodes.map WNode.id).Nodup)
    (hvalid : ∀ c ∈ conns, c.from_ ∈ nodes.map WNode.id ∧ c.to_ ∈ nodes.map WNode.id)
    (hok : getExecutionOrder nodes conns = .ok order) :
    ∀ c ∈ conns, c.from_ ∈ order ∧ c.to_ ∈ order ∧
      order.indexOf c.from_ < order.indexOf c.to_ := by
  obtain ⟨hnd, _, _, hsplits, _⟩ := getExecutionOrder_spec nodes conns order hno hvalid hok
  intro c hc
  have hto : c.to_ ∈ order :=
    order_perm_ids hno hvalid hok c.to_ (hvalid c hc).2
  obtain ⟨o1, o2, hsplit⟩ := List.append_of_mem hto
  have hfrom : c.from_ ∈ o1 := hsplits c hc o1 o2 hsplit
  exact before_indexOf hnd hsplit hfrom

theorem getExecutionOrder_valid_cases (nodes : List WNode) (conns : List Connection)
    (hno : (nodes.map WNode.id).Nodup)
    (hvalid : ∀ c ∈ conns, c.from_ ∈ nodes.map WNode.id ∧ c.to_ ∈ nodes.map WNode.id) :
    getExecutionOrder nodes conns =
      .error "Workflow contains a cycle and cannot be executed" ∨
    ∃ order, getExecutionOrder nodes conns = .ok order := by
  have hadd := getExecutionOrder_tables nodes conns hno hvalid
  rw [getExecutionOrder, hadd]
  simp only
  split
  · exact Or.inl rfl
  · exact Or.inr ⟨_, rfl⟩

theorem getExecutionOrder_cyclic (nodes : List WNode) (conns : List Connection)
    (hno : (nodes.map WNode.id).Nodup)
    (hvalid : ∀ c ∈ conns, c.from_ ∈ nodes.map WNode.id ∧ c.to_ ∈ nodes.map WNode.id)
    (hcyc : isCyclic conns) :
    getExecutionOrder nodes conns =
      .error "Workflow contains a cycle and cannot be executed" := by
  rcases getExecutionOrder_valid_cases nodes conns hno hvalid with h | ⟨order, hok⟩
  · exact h
  · exfalso
    have htopo := getExecutionOrder_topological hno hvalid hok
    obtain ⟨v, p, hchain⟩ := hcyc
    have hE : ∀ a b, hasEdge conns a b → order.indexOf a < order.indexOf b := by
      intro a b hab
      obtain ⟨c, hc, hfa, htb⟩ := hab
      have := (htopo c hc).2.2
      rw [hfa, htb] at this
      exact this
    have := chain_indexOf_lt hE p v v hchain
    omega

theorem addConnections_invalid (ids : List String) (hno : ids.Nodup) :
    ∀ (cs : List Connection) (g : String → List String) (dgr : String → Int),
    (∃ c ∈ cs, c.from_ ∉ ids ∨ c.to_ ∉ ids) →
    ∃ c ∈ cs, (c.from_ ∉ ids ∨ c.to_ ∉ ids) ∧
      addConnections (tab ids g) (tab ids dgr) cs =
        .error ("Invalid connection: " ++ c.from_ ++ " -> " ++ c.to_) := by
  intro cs
  induction cs with
  | nil =>
      intro g dgr h
      simp at h
  | cons c cs ih =>
      intro g dgr h
      by_cases hcv : c.from_ ∈ ids ∧ c.to_ ∈ ids
      · have hrest : ∃ x ∈ cs, x.from_ ∉ ids ∨ x.to_ ∉ ids := by
          rcases h with ⟨x, hx, hbad⟩
          rcases List.mem_cons.mp hx with hx1 | hx1
          · subst hx1
            rcases hbad with hbad | hbad
            · exact absurd hcv.1 hbad
            · exact absurd hcv.2 hbad
          · exact ⟨x, hx1, hbad⟩
        have hhas1 : mapHas (tab ids g) c.from_ = true := (mapHas_tab g c.from_).mpr hcv.1
        have hhas2 : mapHas (tab ids g) c.to_ = true := (mapHas_tab g c.to_).mpr hcv.2
        obtain ⟨x, hx, hbad, herr⟩ := ih
          (fun i => if i = c.from_ then g c.from_ ++ [c.to_] else g i)
          (fun i => if i = c.to_ then dgr c.to_ + 1 else dgr i)
          hrest
        refine ⟨x, by simp [hx], hbad, ?_⟩
        simp only [addConnections, hhas1, hhas2, and_self, not_true_eq_false, if_false]
        rw [mapGet_tab_mem g hcv.1, mapGet_tab_mem dgr hcv.2]
        simp only [Option.getD_some]
        rw [mapSet_tab hno g hcv.1, mapSet_tab hno dgr hcv.2]
        exact herr
      · refine ⟨c, by simp, ?_, ?_⟩
        · by_cases h1 : c.from_ ∈ ids
          · exact Or.inr (fun h2 => hcv ⟨h1, h2⟩)
          · exact Or.inl h1
        · have : ¬ (mapHas (tab ids g) c.from_ = true ∧ mapHas (tab ids g) c.to_ = true) := by
            intro hc
            exact hcv ⟨(mapHas_tab g c.from_).mp hc.1, (mapHas_tab g c.to_).mp hc.2⟩
          simp only [addConnections]
          rw [if_pos ?_]
          intro hc
          exact this ⟨by rw [hc.1], by rw [hc.2]⟩

theorem getExecutionOrder_invalid (nodes : List WNode) (conns : List Connection)
    (hno : (nodes.map WNode.id).Nodup)
    (hinv : ∃ c ∈ conns, c.from_ ∉ nodes.map WNode.id ∨ c.to_ ∉ nodes.map WNode.id) :
    ∃ c ∈ conns, (c.from_ ∉ nodes.map WNode.id ∨ c.to_ ∉ nodes.map WNode.id) ∧
      getExecutionOrder nodes conns =
        .error ("Invalid connection: " ++ c.from_ ++ " -> " ++ c.to_) := by
  obtain ⟨c, hc, hbad, herr⟩ := addConnections_invalid (nodes.map WNode.id) hno conns
    (fun _ => []) (fun _ => 0) hinv
  refine ⟨c, hc, hbad, ?_⟩
  rw [getExecutionOrder, buildGraphInit_eq nodes hno, buildInDegree_eq nodes hno, herr]

/-- Updates that touch neither `status` nor `results`: the per-node
`currentNodeId` update and the log appends. -/
def benignOp : StorageOp → Prop
  | .setCurrent _ => True
  | .appendLog _ => True
  | _ => False

theorem runStorage_append (e : Execution) (ops1 ops2 : List StorageOp) :
    runStorage e (ops1 ++ ops2) = runStorage (runStorage e ops1) ops2 := by
  simp [runStorage, List.foldl_append]

theorem runStorage_benign (ops : List StorageOp) :
    ∀ e : Execution, (∀ op ∈ ops, benignOp op) →
    (runStorage e ops).status = e.status ∧
    (runStorage e ops).results = e.results ∧
    ∃ tail, (runStorage e ops).logs = e.logs ++ tail := by
  induction ops with
  | nil => intro e _; exact ⟨rfl, rfl, [], by simp [runStorage]⟩
  | cons op rest ih =>
      intro e hben
      have hop := hben op (by simp)
      have hstep : runStorage e (op :: rest) = runStorage (applyOp e op) rest := by
        simp [runStorage]
      rw [hstep]
      obtain ⟨h1, h2, tail, h3⟩ := ih (applyOp e op) (fun x hx => hben x (by simp [hx]))
      cases op with
      | setCurrent n =>
          exact ⟨h1, h2, tail, by rw [h3]; rfl⟩
      | appendLog entry =>
          refine ⟨h1, h2, entry :: tail, ?_⟩
          rw [h3]
          simp [applyOp]
      | markFailed t => simp [benignOp] at hop
      | markCompleted t rs => simp [benignOp] at hop
      | markStopped t => simp [benignOp] at hop

theorem runNodes_failed_shape (env : EngineEnv) (wf : Workflow) :
    ∀ (order : List String) (results : List (String × List Rec))
      (ops : List StorageOp) (invs : List Invocation) (n : String),
    (runNodes env wf order results ops invs).outcome = .failedAtNode n →
    ∃ mid t, (runNodes env wf order results ops invs).ops = ops ++ mid ++ [.markFailed t] ∧
      ∀ op ∈ mid, benignOp op := by
  intro order
  induction order with
  | nil =>
      intro results ops invs n h
      simp [runNodes] at h
  | cons nodeId rest ih =>
      intro results ops invs n h
      simp only [runNodes] at h ⊢
      cases hfind : wf.nodes.find? (fun nd => nd.id = nodeId) with
      | none =>
          rw [hfind] at h
          simp at h
      | some nodeConfig =>
          rw [hfind] at h
          dsimp only at h ⊢
          cases hreg : env.registry nodeConfig.type with
          | none =>
              rw [hreg] at h
              dsimp only at h ⊢
              refine ⟨[.setCurrent nodeId,
                logOp env "info" ("Executing Node: " ++ nodeConfig.id ++ " (" ++ nodeConfig.type ++ ")") (some nodeId),
                logOp env "error" ("ERROR: Node type \"" ++ nodeConfig.type ++ "\" is not registered") (some nodeId)],
                env.now, ?_, ?_⟩
              · simp
              · intro op hop
                simp only [List.mem_cons, List.mem_singleton] at hop
                rcases hop with h1 | h1 | h1 | h1 <;> first
                  | (rw [h1]; trivial)
                  | simp at h1
          | some exec =>
              rw [hreg] at h
              dsimp only at h ⊢
              cases hexec : exec (gatherInputs wf.connections results nodeId)
                  ((nodeConfig.params).getD []) with
              | error msg =>
                  rw [hexec] at h
                  dsimp only at h ⊢
                  refine ⟨[.setCurrent nodeId,
                    logOp env "info" ("Executing Node: " ++ nodeConfig.id ++ " (" ++ nodeConfig.type ++ ")") (some nodeId),
                    logOp env "error" ("ERROR: " ++ msg) (some nodeId)],
                    env.now, ?_, ?_⟩
                  · simp
                  · intro op hop
                    simp only [List.mem_cons, List.mem_singleton] at hop
                    rcases hop with h1 | h1 | h1 | h1 <;> first
                      | (rw [h1]; trivial)
                      | simp at h1
              | ok outputData =>
                  rw [hexec] at h
                  dsimp only at h ⊢
                  obtain ⟨mid, t, hops, hben⟩ := ih _ _ _ n h
                  refine ⟨[.setCurrent nodeId,
                    logOp env "info" ("Executing Node: " ++ nodeConfig.id ++ " (" ++ nodeConfig.type ++ ")") (some nodeId),
                    logOp env "info" ("Output: " ++ stringifyResults outputData) (some nodeId)] ++ mid,
                    t, ?_, ?_⟩
                  · rw [hops]
                    simp
                  · intro op hop
                    simp only [List.mem_append, List.mem_cons, List.mem_singleton] at hop
                    rcases hop with (h1 | h1 | h1 | h1) | h1
                    · rw [h1]; trivial
                    · rw [h1]; trivial
                    · rw [h1]; trivial
                    · simp at h1
                    · exact hben op h1

theorem executeWorkflow_failed_shape (env : EngineEnv) (wf : Workflow) (n : String)
    (h : (executeWorkflow env wf).outcome = .failedAtNode n) :
    ∃ mid t, (executeWorkflow env wf).ops = mid ++ [.markFailed t] ∧
      ∀ op ∈ mid, benignOp op := by
  rw [executeWorkflow] at h ⊢
  cases hord : getExecutionOrder wf.nodes wf.connections with
  | error msg =>
      rw [hord] at h
      simp at h
  | ok order =>
      rw [hord] at h
      dsimp only at h ⊢
      obtain ⟨mid, t, hops, hben⟩ := runNodes_failed_shape env wf order _ _ _ n h
      refine ⟨[logOp env "info" "--- Workflow Starting ---" none,
        logOp env "info" ("Executing workflow: " ++ wf.name) none,
        logOp env "info" ("Execution order: " ++ joinSep " -> " order) none] ++ mid,
        t, ?_, ?_⟩
      · rw [hops]
        simp
      · intro op hop
        simp only [List.mem_append, List.mem_cons, List.mem_singleton] at hop
        rcases hop with (h1 | h1 | h1 | h1) | h1
        · rw [h1]; trivial
        · rw [h1]; trivial
        · rw [h1]; trivial
        · simp at h1
        · exact hben op h1

theorem executeWorkflow_failed_state (env : EngineEnv) (wf : Workflow)
    (init : Execution) (n : String)
    (h : (executeWorkflow env wf).outcome = .failedAtNode n) :
    (runStorage init (executeWorkflow env wf).ops).status = "failed" ∧
    (runStorage init (executeWorkflow env wf).ops).results = init.results ∧
    ∃ tail, (runStorage init (executeWorkflow env wf).ops).logs = init.logs ++ tail := by
  obtain ⟨mid, t, hops, hben⟩ := executeWorkflow_failed_shape env wf n h
  rw [hops, runStorage_append]
  obtain ⟨h1, h2, tail, h3⟩ := runStorage_benign mid init hben
  refine ⟨rfl, ?_, tail, ?_⟩
  · show (applyOp (runStorage init mid) (.markFailed t)).results = init.results
    rw [show (applyOp (runStorage init mid) (.markFailed t)).results =
      (runStorage init mid).results from rfl, h2]
  · show (applyOp (runStorage init mid) (.markFailed t)).logs = init.logs ++ tail
    rw [show (applyOp (runStorage init mid) (.markFailed t)).logs =
      (runStorage init mid).logs from rfl, h3]

theorem executeWorkflow_scheduling_error (env : EngineEnv) (wf : Workflow)
    (init : Execution) (msg : String)
    (herr : getExecutionOrder wf.nodes wf.connections = .error msg) :
    (executeWorkflow env wf).invocations = [] ∧
    (executeWorkflow env wf).results = [] ∧
    (executeWorkflow env wf).outcome = .engineError msg ∧
    (runStorage init (executeWorkflow env wf).ops).status = "failed" ∧
    (runStorage init (executeWorkflow env wf).ops).results = init.results := by
  rw [executeWorkflow, herr]
  refine ⟨rfl, rfl, rfl, ?_, ?_⟩ <;>
    simp [runStorage, applyOp, logOp]

/-- The input-gathering step as the specification states it: the
concatenation, in connection-list order, of the stored result lists of the
incoming connections' sources (a source with no stored list contributes
nothing), or a single empty record when there is no incoming connection. -/
def specGatherInputs (conns : List Connection) (results : List (String × List Rec))
    (nodeId : String) : List Rec :=
  let inc := conns.filter (fun c => c.to_ = nodeId)
  if inc.isEmpty then [([] : Rec)]
  else (inc.map (fun c => (mapGet results c.from_).getD [])).flatten

theorem gather_foldl_eq_join (results : List (String × List Rec)) :
    ∀ (l : List Connection) (acc : List Rec),
    l.foldl (fun acc c =>
      match mapGet results c.from_ with
      | some rs => acc ++ rs
      | none => acc) acc =
    acc ++ (l.map (fun c => (mapGet results c.from_).getD [])).flatten := by
  intro l
  induction l with
  | nil => intro acc; simp
  | cons c cs ih =>
      intro acc
      simp only [List.foldl, List.map_cons, List.flatten]
      cases hget : mapGet results c.from_ with
      | none =>
          rw [ih]
          simp
      | some rs =>
          rw [ih]
          simp

theorem gatherInputs_eq_spec (conns : List Connection)
    (results : List (String × List Rec)) (nodeId : String) :
    gatherInputs conns results nodeId = specGatherInputs conns results nodeId := by
  rw [gatherInputs, specGatherInputs]
  by_cases hinc : (conns.filter (fun c => c.to_ = nodeId)).isEmpty
  · rw [if_pos hinc, if_pos hinc]
  · rw [if_neg hinc, if_neg hinc]
    rw [gather_foldl_eq_join]
    simp

theorem runNodes_invocations (env : EngineEnv) (wf : Workflow) :
    ∀ (order : List String) (results : List (String × List Rec))
      (ops : List StorageOp) (invs : List Invocation),
    ∀ inv ∈ (runNodes env wf order results ops invs).invocations,
    inv ∈ invs ∨ inv.inputs = gatherInputs wf.connections inv.resultsBefore inv.nodeId := by
  intro order
  induction order with
  | nil =>
      intro results ops invs inv hinv
      simp only [runNodes] at hinv
      exact Or.inl hinv
  | cons nodeId rest ih =>
      intro results ops invs inv hinv
      simp only [runNodes] at hinv
      cases hfind : wf.nodes.find? (fun nd => nd.id = nodeId) with
      | none =>
          rw [hfind] at hinv
          exact Or.inl hinv
      | some nodeConfig =>
          rw [hfind] at hinv
          dsimp only at hinv
          cases hreg : env.registry nodeConfig.type with
          | none =>
              rw [hreg] at hinv
              exact Or.inl hinv
          | some exec =>
              rw [hreg] at hinv
              dsimp only at hinv
              cases hexec : exec (gatherInputs wf.connections results nodeId)
                  ((nodeConfig.params).getD []) with
              | error msg =>
                  rw [hexec] at hinv
                  dsimp only at hinv
                  rcases List.mem_append.mp hinv with h1 | h1
                  · exact Or.inl h1
                  · rw [List.mem_singleton] at h1
                    subst h1
                    exact Or.inr rfl
              | ok outputData =>
                  rw [hexec] at hinv
                  dsimp only at hinv
                  rcases ih _ _ _ inv hinv with h1 | h1
                  · rcases List.mem_append.mp h1 with h2 | h2
                    · exact Or.inl h2
                    · rw [List.mem_singleton] at h2
                      subst h2
                      exact Or.inr rfl
                  · exact Or.inr h1

theorem executeWorkflow_invocations (env : EngineEnv) (wf : Workflow) :
    ∀ inv ∈ (executeWorkflow env wf).invocations,
    inv.inputs = specGatherInputs wf.connections inv.resultsBefore inv.nodeId := by
  intro inv hinv
  rw [executeWorkflow] at hinv
  cases hord : getExecutionOrder wf.nodes wf.connections with
  | error msg =>
      rw [hord] at hinv
      simp at hinv
  | ok order =>
      rw [hord] at hinv
      dsimp only at hinv
      rcases runNodes_invocations env wf order _ _ _ inv hinv with h | h
      · simp at h
      · rw [h, gatherInputs_eq_spec]

/-- A concrete engine environment for the concrete runs below: the
standard registry, an HTTP transport that would report a connection
failure (never reached in these runs), and a fixed clock. -/
def demoEnv : EngineEnv :=
  { registry := stdRegistry (fun _ => .errorNoResponse) "T1", now := "T1" }

/-- Two chained Log nodes (`A → B`); both succeed. -/
def wfTwoLogs : Workflow :=
  { id := "wf-stop", name := "two-logs",
    nodes := [{ id := "A", type := "LogMessageNode", params := none },
              { id := "B", type := "LogMessageNode", params := none }],
    connections := [{ id := "c1", from_ := "A", to_ := "B" }] }

/-- A Log node feeding an HttpFetch node with no `url` parameter; the
fetch node fails with the missing-parameter error before any request. -/
def wfLogThenFetch : Workflow :=
  { id := "wf-fail", name := "log-then-fetch",
    nodes := [{ id := "A", type := "LogMessageNode", params := none },
              { id := "B", type := "FetchApiNode", params := some [] }],
    connections := [{ id := "c1", from_ := "A", to_ := "B" }] }

/-- The freshly created execution record the routes layer stores before
starting the engine. -/
def initDemo : Execution := initialExecution "exec-1" "wf-stop" "T0"

/-- C1: the claim says the run loop checks the execution status before
scheduling each node, so that after an external stop request the status
stays `stopped` and no further node executor runs.  The code never reads
the status: in the two-node workflow `A → B`, a stop request applied
after node A's three storage updates (position 6 of the engine's update
sequence) does set the status to `stopped`, yet the engine still emits
node B's `currentNodeId` update, still invokes B's executor, and its
final update overwrites the status with `completed`.  This violates the
spec's monotone-status requirement (the stop route in routes.ts is the
intended cancellation mechanism), so the claim is right and the code is
wrong. -/
theorem c1_stop_request_ignored :
    (runStorage initDemo
      (((executeWorkflow demoEnv wfTwoLogs).ops.take 6) ++
        [StorageOp.markStopped "T9"])).status = "stopped" ∧
    StorageOp.setCurrent "B" ∈ (executeWorkflow demoEnv wfTwoLogs).ops.drop 6 ∧
    (executeWorkflow demoEnv wfTwoLogs).invocations.map (fun i => i.nodeId) = ["A", "B"] ∧
    (runStorage initDemo
      (((executeWorkflow demoEnv wfTwoLogs).ops.take 6) ++
        [StorageOp.markStopped "T9"] ++
        ((executeWorkflow demoEnv wfTwoLogs).ops.drop 6))).status = "completed" := by
  refine ⟨by decide, by decide, by decide, by decide⟩

/-- C2 counterexample: the claim says a failed run's observable record
holds exactly one `results` entry per node that succeeded before the
failure.  In `A (Log, succeeds) → B (HttpFetch, fails on missing url)`,
node A's output is in the engine's in-memory result map, the run ends
failed, yet the stored record's `results` is still absent (`none`): the
failure update never writes `results`, so the accumulated entry for A is
not in the observable record. -/
theorem c2_failed_results_dropped :
    (executeWorkflow demoEnv wfLogThenFetch).outcome = .failedAtNode "B" ∧
    (mapGet (executeWorkflow demoEnv wfLogThenFetch).results "A").isSome = true ∧
    (runStorage initDemo (executeWorkflow demoEnv wfLogThenFetch).ops).status = "failed" ∧
    (runStorage initDemo (executeWorkflow demoEnv wfLogThenFetch).ops).results = none := by
  refine ⟨by decide, by decide, by decide, by decide⟩

/-- C2 (amended): for every run in which some node's executor fails, the
final observable record has status `failed` and preserves all logs
accumulated so far, but its `results` map is left exactly as it was at
creation (empty): the per-node outputs accumulated in memory — for
succeeded nodes as well as anything downstream — are never persisted by
the failure branch. -/
theorem c2_failed_run_state (env : EngineEnv) (wf : Workflow) (init : Execution)
    (n : String)
    (h : (executeWorkflow env wf).outcome = .failedAtNode n) :
    (runStorage init (executeWorkflow env wf).ops).status = "failed" ∧
    (runStorage init (executeWorkflow env wf).ops).results = init.results ∧
    ∃ tail, (runStorage init (executeWorkflow env wf).ops).logs = init.logs ++ tail :=
  executeWorkflow_failed_state env wf init n h

theorem c2_failed_run_state_witness :
    (executeWorkflow demoEnv wfLogThenFetch).outcome = .failedAtNode "B" ∧
    ((runStorage initDemo (executeWorkflow demoEnv wfLogThenFetch).ops).status = "failed" ∧
     (runStorage initDemo (executeWorkflow demoEnv wfLogThenFetch).ops).results = initDemo.results ∧
     ∃ tail, (runStorage initDemo (executeWorkflow demoEnv wfLogThenFetch).ops).logs =
       initDemo.logs ++ tail) :=
  ⟨by decide, c2_failed_run_state demoEnv wfLogThenFetch initDemo "B" (by decide)⟩

/-- C3: whenever the scheduler returns an order for a node/connection set
with unique node ids and connections between known ids, that order is a
valid topological order — for every connection the source appears
strictly before the target — and the tie-break is deterministic: the
returned order starts with exactly the zero-in-degree nodes in the order
they appear in the workflow's node list (so two independent
zero-in-degree nodes execute in node-list order). -/
theorem c3_topological_order_and_tiebreak
    (nodes : List WNode) (conns : List Connection) (order : List String)
    (hno : (nodes.map WNode.id).Nodup)
    (hvalid : ∀ c ∈ conns, c.from_ ∈ nodes.map WNode.id ∧ c.to_ ∈ nodes.map WNode.id)
    (hok : getExecutionOrder nodes conns = .ok order) :
    (∀ c ∈ conns, c.from_ ∈ order ∧ c.to_ ∈ order ∧
      order.indexOf c.from_ < order.indexOf c.to_) ∧
    (∃ rest, order =
      (nodes.map WNode.id).filter (fun i => initDeg conns i = 0) ++ rest) :=
  ⟨getExecutionOrder_topological hno hvalid hok,
   (getExecutionOrder_spec nodes conns order hno hvalid hok).2.2.2.2⟩

/-- The tie-break fixture: `b` and `a` are independent zero-in-degree
nodes listed in this order; `c` depends on `b`. -/
def tieNodes : List WNode :=
  [{ id := "b", type := "LogMessageNode", params := none },
   { id := "a", type := "LogMessageNode", params := none },
   { id := "c", type := "LogMessageNode", params := none }]

def tieConns : List Connection := [{ id := "c1", from_ := "b", to_ := "c" }]

theorem c3_topological_order_and_tiebreak_witness :
    ((tieNodes.map WNode.id).Nodup ∧
     (∀ c ∈ tieConns, c.from_ ∈ tieNodes.map WNode.id ∧ c.to_ ∈ tieNodes.map WNode.id) ∧
     getExecutionOrder tieNodes tieConns = .ok ["b", "a", "c"]) ∧
    ((∀ c ∈ tieConns, c.from_ ∈ ["b", "a", "c"] ∧ c.to_ ∈ ["b", "a", "c"] ∧
      (["b", "a", "c"] : List String).indexOf c.from_ <
        (["b", "a", "c"] : List String).indexOf c.to_) ∧
     (∃ rest, ["b", "a", "c"] =
       (tieNodes.map WNode.id).filter (fun i => initDeg tieConns i = 0) ++ rest)) :=
  ⟨⟨by decide, by decide, by decide⟩,
   c3_topological_order_and_tiebreak tieNodes tieConns ["b", "a", "c"]
     (by decide) (by decide) (by decide)⟩

/-- C4 counterexample: the claim says a condition whose placeholder path
is absent from the first input record keeps the placeholder literal and
fails with `ConditionEvaluationError`.  In the code, the replacer returns
`JSON.stringify(undefined)`, i.e. the value `undefined`, which
`String.prototype.replace` coerces to the text `undefined`: the condition
`(missing placeholder) === 5` is substituted to `undefined === 5`, which
is not the literal placeholder text, and evaluation succeeds with
`conditionResult == false` — no error is thrown. -/
theorem c4_missing_path_no_error :
    substituteCondition [] "\x7b\x7bmissing\x7d\x7d === 5" = "undefined === 5" ∧
    ("undefined === 5" : String) ≠ "\x7b\x7bmissing\x7d\x7d === 5" ∧
    ifNodeExecute [[]] [("condition", .jstr "\x7b\x7bmissing\x7d\x7d === 5")] =
      .ok [[("conditionResult", .jbool false),
            ("conditionExpression", .jstr "\x7b\x7bmissing\x7d\x7d === 5"),
            ("inputData", .jobj []),
            ("outputPath", .jstr "false")]] := by
  refine ⟨by decide, by decide, by decide⟩

/-- C4 (amended): given first input `\x7ba: \x7bb: 5\x7d\x7d` and
condition `(a.b placeholder) === 5`, the Branch executor returns
`conditionResult == true` and `outputPath == "true"`; and for a condition
whose placeholder path is absent from the first input record, the
placeholder is substituted with the text `undefined` (the coerced result
of `JSON.stringify(undefined)`), and a comparison such as
`(missing placeholder) === 5` evaluates successfully to
`conditionResult == false`, `outputPath == "false"` instead of failing
with `ConditionEvaluationError`. -/
theorem c4_branch_behavior :
    ifNodeExecute [[("a", .jobj [("b", .jnum 5)])]]
        [("condition", .jstr "\x7b\x7ba.b\x7d\x7d === 5")] =
      .ok [[("conditionResult", .jbool true),
            ("conditionExpression", .jstr "\x7b\x7ba.b\x7d\x7d === 5"),
            ("inputData", .jobj [("a", .jobj [("b", .jnum 5)])]),
            ("outputPath", .jstr "true")]] ∧
    substituteCondition [("a", .jobj [("b", .jnum 5)])] "\x7b\x7ba.b\x7d\x7d === 5" =
      "5 === 5" ∧
    substituteCondition [] "\x7b\x7bmissing\x7d\x7d === 5" = "undefined === 5" ∧
    ifNodeExecute [[]] [("condition", .jstr "\x7b\x7bmissing\x7d\x7d === 5")] =
      .ok [[("conditionResult", .jbool false),
            ("conditionExpression", .jstr "\x7b\x7bmissing\x7d\x7d === 5"),
            ("inputData", .jobj []),
            ("outputPath", .jstr "false")]] := by
  refine ⟨by decide, by decide, by decide, by decide⟩

/-- The message formatting the specification describes for the Log step
(stated from the spec's words, for comparison with the code): resolve
each dotted-path placeholder against the first input record, rendering
the found value, and leave the placeholder literal when a segment is
absent. -/
def jsToDisplayString (v : JValue) : String :=
  match v with
  | .jnum n => intToString n
  | .jstr s => s
  | .jbool true => "true"
  | .jbool false => "false"
  | .jnull => "null"
  | v => jsonStringify v

def specFormatMessage (data : Rec) (msg : String) : String :=
  String.mk (substituteTemplates
    (fun path =>
      match walkPath (.jobj data) path with
      | some v => jsToDisplayString v
      | none => "\x7b\x7b" ++ path ++ "\x7d\x7d") msg.data)

/-- C5 counterexample: the claim says the Log executor resolves each
placeholder of `params.message` against the first input record.  The
engine's `LogMessageNode.execute` performs no substitution at all: with
input `\x7ba: 5\x7d` and message `value: (a placeholder)`, the returned
`logMessage` is the raw message, not the resolved string `value: 5` that
the specification's formatting would produce. -/
theorem c5_log_no_substitution :
    logMessageExecute "T0" [[("a", .jnum 5)]]
        [("message", .jstr "value: \x7b\x7ba\x7d\x7d")] =
      .ok [[("logMessage", .jstr "value: \x7b\x7ba\x7d\x7d"),
            ("loggedData", .jobj [("a", .jnum 5)]),
            ("timestamp", .jstr "T0")]] ∧
    specFormatMessage [("a", .jnum 5)] "value: \x7b\x7ba\x7d\x7d" = "value: 5" ∧
    ("value: \x7b\x7ba\x7d\x7d" : String) ≠ "value: 5" := by
  refine ⟨by decide, by decide, by decide⟩

/-- C5 (amended): for every inputs list and every string
`params.message`, the Log executor returns successfully a single derived
record `\x7blogMessage, loggedData: inputs[0] or \x7b\x7d, timestamp:
now\x7d` — but `logMessage` is `params.message` verbatim: no placeholder
is resolved (every placeholder stays literal), and the step never
fails. -/
theorem c5_log_message_verbatim (now : String) (inputs : List Rec) (msg : String)
    (rest : Rec) :
    logMessageExecute now inputs (("message", .jstr msg) :: rest) =
      .ok [[("logMessage", .jstr msg),
            ("loggedData", .jobj ((inputs.head?).getD [])),
            ("timestamp", .jstr now)]] := by
  rfl

/-- C10: the Log executor is total: for every inputs list and every
params record it returns successfully exactly one derived record, with
`logMessage` defaulting to `Log output` when `params.message` is absent
and `loggedData` the first input record or `\x7b\x7d` when the inputs
list is empty. -/
theorem c10_log_executor_total (now : String) (inputs : List Rec) (params : Rec) :
    logMessageExecute now inputs params =
      .ok [[("logMessage", (lookupField params "message").getD (.jstr "Log output")),
            ("loggedData", .jobj ((inputs.head?).getD [])),
            ("timestamp", .jstr now)]] := by
  rfl

/-- C6: for every workflow with unique node ids and valid connection
endpoints whose connection set contains a cycle, scheduling fails with
the cycle error (the order would be shorter than the node count), no node
executor is ever invoked, the stored record's `results` stays exactly as
created (empty), and the execution ends `failed`, not `running`. -/
theorem c6_cycle_detected (env : EngineEnv) (wf : Workflow) (eid wid now0 : String)
    (hno : (wf.nodes.map WNode.id).Nodup)
    (hvalid : ∀ c ∈ wf.connections,
      c.from_ ∈ wf.nodes.map WNode.id ∧ c.to_ ∈ wf.nodes.map WNode.id)
    (hcyc : isCyclic wf.connections) :
    getExecutionOrder wf.nodes wf.connections =
      .error "Workflow contains a cycle and cannot be executed" ∧
    (executeWorkflow env wf).invocations = [] ∧
    (runStorage (initialExecution eid wid now0) (executeWorkflow env wf).ops).status =
      "failed" ∧
    (runStorage (initialExecution eid wid now0) (executeWorkflow env wf).ops).results =
      none := by
  have herr := getExecutionOrder_cyclic wf.nodes wf.connections hno hvalid hcyc
  obtain ⟨hinv, _, _, hst, hres⟩ :=
    executeWorkflow_scheduling_error env wf (initialExecution eid wid now0) _ herr
  exact ⟨herr, hinv, hst, hres⟩

/-- A two-node cycle `X → Y → X`. -/
def wfCycle : Workflow :=
  { id := "wf-cycle", name := "cycle",
    nodes := [{ id := "X", type := "LogMessageNode", params := none },
              { id := "Y", type := "LogMessageNode", params := none }],
    connections := [{ id := "c1", from_ := "X", to_ := "Y" },
                    { id := "c2", from_ := "Y", to_ := "X" }] }

theorem c6_cycle_detected_witness :
    ((wfCycle.nodes.map WNode.id).Nodup ∧
     (∀ c ∈ wfCycle.connections,
       c.from_ ∈ wfCycle.nodes.map WNode.id ∧ c.to_ ∈ wfCycle.nodes.map WNode.id) ∧
     isCyclic wfCycle.connections) ∧
    (getExecutionOrder wfCycle.nodes wfCycle.connections =
       .error "Workflow contains a cycle and cannot be executed" ∧
     (executeWorkflow demoEnv wfCycle).invocations = [] ∧
     (runStorage (initialExecution "e" "w" "T0") (executeWorkflow demoEnv wfCycle).ops).status =
       "failed" ∧
     (runStorage (initialExecution "e" "w" "T0") (executeWorkflow demoEnv wfCycle).ops).results =
       none) := by
  have hcyc : isCyclic wfCycle.connections := by
    refine ⟨"X", ["Y"], ?_⟩
    refine List.Chain.cons ⟨{ id := "c1", from_ := "X", to_ := "Y" }, by decide, rfl, rfl⟩ ?_
    exact List.Chain.cons ⟨{ id := "c2", from_ := "Y", to_ := "X" }, by decide, rfl, rfl⟩
      List.Chain.nil
  exact ⟨⟨by decide, by decide, hcyc⟩,
    c6_cycle_detected demoEnv wfCycle "e" "w" "T0" (by decide) (by decide) hcyc⟩

/-- C7: for every workflow with unique node ids in which some
connection's endpoint references an unknown node id, computing the
execution order fails with the invalid-connection error naming that
connection's endpoints, no node executor ever runs, and the execution is
marked failed by the outer catch — a validation failure, not a crash
mid-execution. -/
theorem c7_invalid_connection (env : EngineEnv) (wf : Workflow) (eid wid now0 : String)
    (hno : (wf.nodes.map WNode.id).Nodup)
    (hbad : ∃ c ∈ wf.connections,
      c.from_ ∉ wf.nodes.map WNode.id ∨ c.to_ ∉ wf.nodes.map WNode.id) :
    ∃ c ∈ wf.connections,
      (c.from_ ∉ wf.nodes.map WNode.id ∨ c.to_ ∉ wf.nodes.map WNode.id) ∧
      getExecutionOrder wf.nodes wf.connections =
        .error ("Invalid connection: " ++ c.from_ ++ " -> " ++ c.to_) ∧
      (executeWorkflow env wf).invocations = [] ∧
      (runStorage (initialExecution eid wid now0) (executeWorkflow env wf).ops).status =
        "failed" := by
  obtain ⟨c, hc, hb, herr⟩ := getExecutionOrder_invalid wf.nodes wf.connections hno hbad
  obtain ⟨hinv, _, _, hst, _⟩ :=
    executeWorkflow_scheduling_error env wf (initialExecution eid wid now0) _ herr
  exact ⟨c, hc, hb, herr, hinv, hst⟩

/-- A workflow whose single connection targets an id that is not a
node. -/
def wfBadConn : Workflow :=
  { id := "wf-bad", name := "bad-conn",
    nodes := [{ id := "X", type := "LogMessageNode", params := none }],
    connections := [{ id := "c1", from_ := "X", to_ := "Z" }] }

theorem c7_invalid_connection_witness :
    ((wfBadConn.nodes.map WNode.id).Nodup ∧
     (∃ c ∈ wfBadConn.connections,
       c.from_ ∉ wfBadConn.nodes.map WNode.id ∨ c.to_ ∉ wfBadConn.nodes.map WNode.id)) ∧
    (∃ c ∈ wfBadConn.connections,
      (c.from_ ∉ wfBadConn.nodes.map WNode.id ∨ c.to_ ∉ wfBadConn.nodes.map WNode.id) ∧
      getExecutionOrder wfBadConn.nodes wfBadConn.connections =
        .error ("Invalid connection: " ++ c.from_ ++ " -> " ++ c.to_) ∧
      (executeWorkflow demoEnv wfBadConn).invocations = [] ∧
      (runStorage (initialExecution "e" "w" "T0")
        (executeWorkflow demoEnv wfBadConn).ops).status = "failed") :=
  ⟨⟨by decide, by decide⟩,
   c7_invalid_connection demoEnv wfBadConn "e" "w" "T0" (by decide) (by decide)⟩

/-- C8: the HttpFetch executor fails with the missing-parameter error on
a falsy `params.url` regardless of the transport (no request is issued);
whenever a request configuration is successfully built it carries the
30-second timeout; with a usable url and a buildable configuration the
result is exactly determined by the transport's outcome on that
configuration — a 2xx response yields the single
`\x7bstatusCode, headers, data, inputData\x7d` record, and each of the
three failure shapes yields its own `NodeExecutionError` message (status
embedded for a received non-2xx response, a distinct no-response message,
a distinct setup-failure message); when the configuration cannot be
constructed (present non-string `params.method`, whose `toLowerCase()`
throws) the result is the setup-failure error for every transport, i.e.
no request is issued; and the three failure messages are pairwise
distinct. -/
theorem c8_http_fetch_contract :
    (∀ (axios : AxiosConfig → AxiosOutcome) (inputs : List Rec) (params : Rec),
      isFalsy (lookupField params "url") = true →
      fetchApiExecute axios inputs params = .error "URL is required for HTTP request") ∧
    (∀ (params : Rec) (config : AxiosConfig),
      buildAxiosConfig params = some config → config.timeout = 30000) ∧
    (∀ (axios : AxiosConfig → AxiosOutcome) (inputs : List Rec) (params : Rec)
       (config : AxiosConfig),
      isFalsy (lookupField params "url") = false →
      buildAxiosConfig params = some config →
      fetchApiExecute axios inputs params =
        match axios config with
        | .success status headers data =>
            .ok [[("statusCode", .jnum status), ("headers", headers), ("data", data),
                  ("inputData", .jobj ((inputs.head?).getD []))]]
        | .errorResponse status statusText =>
            .error ("HTTP " ++ toString status ++ ": " ++ statusText)
        | .errorNoResponse => .error "No response received from server"
        | .errorSetup message => .error ("Request failed: " ++ message)) ∧
    (∀ (axios : AxiosConfig → AxiosOutcome) (inputs : List Rec) (params : Rec),
      isFalsy (lookupField params "url") = false →
      buildAxiosConfig params = none →
      fetchApiExecute axios inputs params =
        .error ("Request failed: " ++ methodTypeErrorMessage)) ∧
    (∀ (status : Int) (statusText message : String),
      ("HTTP " ++ toString status ++ ": " ++ statusText) ≠
        "No response received from server" ∧
      ("HTTP " ++ toString status ++ ": " ++ statusText) ≠
        ("Request failed: " ++ message) ∧
      ("No response received from server" : String) ≠
        ("Request failed: " ++ message)) := by
  refine ⟨?_, ?_, ?_, ?_, ?_⟩
  · intro axios inputs params hfalsy
    rw [fetchApiExecute, if_pos hfalsy]
  · intro params config h
    cases hm : (lookupField params "method").getD (.jstr "GET") with
    | jstr m =>
        simp only [buildAxiosConfig, hm] at h
        injection h with h
        rw [← h]
    | jnull =>
        simp only [buildAxiosConfig, hm] at h
        exact Option.noConfusion h
    | jbool b =>
        simp only [buildAxiosConfig, hm] at h
        exact Option.noConfusion h
    | jnum n =>
        simp only [buildAxiosConfig, hm] at h
        exact Option.noConfusion h
    | jarr xs =>
        simp only [buildAxiosConfig, hm] at h
        exact Option.noConfusion h
    | jobj fs =>
        simp only [buildAxiosConfig, hm] at h
        exact Option.noConfusion h
  · intro axios inputs params config hurl hcfg
    rw [fetchApiExecute, if_neg (by rw [hurl]; simp), hcfg]
  · intro axios inputs params hurl hcfg
    rw [fetchApiExecute, if_neg (by rw [hurl]; simp), hcfg]
  · intro status statusText message
    refine ⟨?_, ?_, ?_⟩
    · intro h
      have h3 := congrArg (fun s : String => s.data.head?) h
      simp only [String.append_assoc] at h3
      simp only [String.data_append] at h3
      simp at h3
    · intro h
      have h3 := congrArg (fun s : String => s.data.head?) h
      simp only [String.append_assoc] at h3
      simp only [String.data_append] at h3
      simp at h3
    · intro h
      have h3 := congrArg (fun s : String => s.data.head?) h
      simp only [String.data_append] at h3
      simp at h3

/-- The configuration built for a plain GET of `http://x`. -/
def cfgX : AxiosConfig :=
  { method := "get", url := .jstr "http://x", headers := .jobj [],
    data := none, timeout := 30000 }

theorem c8_http_fetch_contract_witness :
    (isFalsy (lookupField ([] : Rec) "url") = true ∧
     fetchApiExecute (fun _ => .errorNoResponse) [] [] =
       .error "URL is required for HTTP request") ∧
    (buildAxiosConfig [("url", .jstr "http://x")] = some cfgX ∧
     cfgX.timeout = 30000) ∧
    (isFalsy (lookupField [("url", .jstr "http://x")] "url") = false ∧
     fetchApiExecute (fun _ => .success 200 (.jobj []) (.jstr "ok")) []
         [("url", .jstr "http://x")] =
       .ok [[("statusCode", .jnum 200), ("headers", .jobj []), ("data", .jstr "ok"),
             ("inputData", .jobj [])]]) ∧
    (buildAxiosConfig [("url", .jstr "http://x"), ("method", .jnum 5)] = none ∧
     fetchApiExecute (fun _ => .success 200 (.jobj []) (.jstr "ok")) []
         [("url", .jstr "http://x"), ("method", .jnum 5)] =
       .error ("Request failed: " ++ methodTypeErrorMessage)) ∧
    fetchApiExecute (fun _ => .errorResponse 500 "Internal Server Error") []
        [("url", .jstr "http://x")] =
      .error "HTTP 500: Internal Server Error" :=
  ⟨⟨by decide,
    c8_http_fetch_contract.1 (fun _ => .errorNoResponse) [] [] (by decide)⟩,
   ⟨by decide,
    c8_http_fetch_contract.2.1 [("url", .jstr "http://x")] cfgX (by decide)⟩,
   ⟨by decide, by decide⟩,
   ⟨by decide,
    c8_http_fetch_contract.2.2.2.1 (fun _ => .success 200 (.jobj []) (.jstr "ok")) []
      [("url", .jstr "http://x"), ("method", .jnum 5)] (by decide) (by decide)⟩,
   by decide⟩

/-- C9: in every run, every node-executor invocation receives as input
exactly what the specification describes: the concatenation, in
connection-list order, of the result lists already stored for the
incoming connections' source nodes (sources with no stored list
contribute nothing), or a single empty record when the node has no
incoming connection. -/
theorem c9_input_gathering (env : EngineEnv) (wf : Workflow) :
    ∀ inv ∈ (executeWorkflow env wf).invocations,
    inv.inputs = specGatherInputs wf.connections inv.resultsBefore inv.nodeId :=
  executeWorkflow_invocations env wf

/-- A join: two independent Log nodes both feeding `C`. -/
def wfJoin : Workflow :=
  { id := "wf-join", name := "join",
    nodes := [{ id := "A", type := "LogMessageNode", params := none },
              { id := "B", type := "LogMessageNode", params := none },
              { id := "C", type := "LogMessageNode", params := none }],
    connections := [{ id := "c1", from_ := "A", to_ := "C" },
                    { id := "c2", from_ := "B", to_ := "C" }] }

/-- The third invocation of the join run: node `C`, whose inputs must be
A's stored outputs followed by B's. -/
def invJoinC : Invocation :=
  ((executeWorkflow demoEnv wfJoin).invocations).getD 2
    { nodeId := "", inputs := [], resultsBefore := [] }

theorem c9_input_gathering_witness :
    (invJoinC ∈ (executeWorkflow demoEnv wfJoin).invocations ∧
     invJoinC.nodeId = "C" ∧
     (invJoinC.resultsBefore.map (fun p => p.1)) = ["A", "B"]) ∧
    invJoinC.inputs =
      specGatherInputs wfJoin.connections invJoinC.resultsBefore invJoinC.nodeId :=
  ⟨⟨by decide, by decide, by decide⟩,
   c9_input_gathering demoEnv wfJoin invJoinC (by decide)⟩
